import Mathlib

/-!
Verification of the crawler core (`crawler.py`).

The development shallowly embeds the crawler's pure logic:

* a model of the `urllib.parse` functions the crawler calls
  (`urlparse`/`urlsplit`, `urljoin`, `urldefrag`), written on `List Char`
  following CPython's `Lib/urllib/parse.py` algorithms (params splitting on
  `;` is not modelled; no claim involves it);
* a model of parsed HTML documents as the anchor/base structure the crawler
  reads off `BeautifulSoup` (`find_all('a')`, `find('base')`, attribute
  lookup, which raises `KeyError` on a missing attribute);
* the crawler functions `extract_links_from_page`, `resolve_link_url`,
  `get_page_links`, the worker's `process_queue_item` loop body, the
  `monitor` sampling loop, and a small-step transition system for the
  whole crawl (queue + dedup set + worker phases).
-/

/-! ## Characters and low-level list utilities -/

/-- CPython `scheme_chars`: letters, digits and `+-.` are the characters
allowed in a URL scheme. -/
def schemeChar (c : Char) : Bool :=
  c.isAlpha || c.isDigit || c == '+' || c == '-' || c == '.'

/-- Characters a netloc is delimited by (`_splitnetloc` looks for `/?#`). -/
def netlocStop (c : Char) : Bool :=
  c == '/' || c == '?' || c == '#'

/-- CPython `_UNSAFE_URL_BYTES_TO_REMOVE`: `urlsplit` removes tab, CR and LF
from its input before parsing. -/
def tabCrLf (c : Char) : Bool :=
  c == '\t' || c == '\r' || c == '\n'

/-- Remove tab/CR/LF, as `urlsplit` does on its input string. -/
def stripCtl (s : List Char) : List Char :=
  s.filter (fun c => !tabCrLf c)

/-- Split a list at the first occurrence of `sep`: returns the part before
it and, when `sep` occurs, the part after it (Python `s.split(sep, 1)`). -/
def splitFirst (sep : Char) : List Char → List Char × Option (List Char)
  | [] => ([], none)
  | c :: cs =>
    if c = sep then ([], some cs)
    else
      let r := splitFirst sep cs
      (c :: r.1, r.2)

/-- Python `s.split(sep)` on character lists: always returns at least one
(possibly empty) part. -/
def splitOn (sep : Char) : List Char → List (List Char)
  | [] => [[]]
  | c :: cs =>
    if c = sep then [] :: splitOn sep cs
    else
      match splitOn sep cs with
      | [] => [[c]]
      | p :: ps => (c :: p) :: ps

/-- Python `sep.join(parts)` on character lists. -/
def joinSep (sep : Char) : List (List Char) → List Char
  | [] => []
  | [p] => p
  | p :: ps => p ++ sep :: joinSep sep ps

/-! ## `urllib.parse` model -/

/-- The result of `urlsplit`: scheme, netloc, path, query, fragment.
(`urlparse` additionally splits `params` off the path at `;`, which none of
the crawler's behaviour under verification depends on.) -/
structure SplitResult where
  scheme : List Char
  netloc : List Char
  path : List Char
  query : List Char
  fragment : List Char
deriving DecidableEq

/-- CPython scheme recognition in `urlsplit`: if the first `:` is preceded by
a nonempty run of scheme characters starting with a letter, that run
(lowercased) is the scheme and the rest follows the colon. -/
def splitScheme (s : List Char) : Option (List Char × List Char) :=
  match splitFirst ':' s with
  | (pre, some rest) =>
    match pre with
    | [] => none
    | c :: _ =>
      if c.isAlpha && pre.all schemeChar then some (pre.map Char.toLower, rest)
      else none
  | (_, none) => none

/-- CPython `_splitnetloc` guarded by the `url[:2] == '//'` test: when the
input starts with `//`, the netloc is everything up to the next `/?#`. -/
def splitNetloc (rest : List Char) : List Char × List Char :=
  if rest.take 2 = ['/', '/'] then
    let r := rest.drop 2
    (r.takeWhile (fun c => !netlocStop c), r.dropWhile (fun c => !netlocStop c))
  else ([], rest)

/-- The netloc/fragment/query phase of `urlsplit`, applied after scheme
recognition: `//netloc` is split off first, then the fragment at the first
`#`, then the query at the first `?`. -/
def splitRest (scheme : List Char) (rest : List Char) : SplitResult :=
  let nl := splitNetloc rest
  let fr := splitFirst '#' nl.2
  let fragment := match fr.2 with | some f => f | none => []
  let pq := splitFirst '?' fr.1
  let query := match pq.2 with | some q => q | none => []
  ⟨scheme, nl.1, pq.1, query, fragment⟩

/-- CPython `urlsplit(url, scheme=dscheme)` (with `allow_fragments=True`). -/
def urlsplitCore (dscheme : List Char) (s : List Char) : SplitResult :=
  let s' := stripCtl s
  match splitScheme s' with
  | some (sch, rest) => splitRest sch rest
  | none => splitRest dscheme s'

/-- CPython `urlunsplit`. -/
def urlunsplit (r : SplitResult) : List Char :=
  let url := r.path
  let url :=
    if r.netloc ≠ [] ∨ (url ≠ [] ∧ url.take 2 = ['/', '/']) then
      let url := if url ≠ [] ∧ url.head? ≠ some '/' then '/' :: url else url
      '/' :: '/' :: (r.netloc ++ url)
    else url
  let url := if r.scheme ≠ [] then r.scheme ++ ':' :: url else url
  let url := if r.query ≠ [] then url ++ '?' :: r.query else url
  if r.fragment ≠ [] then url ++ '#' :: r.fragment else url

/-- CPython `uses_relative`. -/
def usesRelative : List (List Char) :=
  ["", "ftp", "http", "gopher", "nntp", "imap", "wais", "file", "https",
   "shttp", "mms", "prospero", "rtsp", "rtspu", "sftp", "svn", "svn+ssh",
   "ws", "wss"].map String.data

/-- CPython `uses_netloc`. -/
def usesNetloc : List (List Char) :=
  ["", "ftp", "http", "gopher", "nntp", "telnet", "imap", "wais", "file",
   "mms", "https", "shttp", "snews", "prospero", "rtsp", "rtspu", "rsync",
   "svn", "svn+ssh", "sftp", "nfs", "git", "git+ssh", "ws", "wss",
   "itms-services"].map String.data

/-- CPython `urljoin`: `segments[1:-1] = filter(None, segments[1:-1])` —
empty interior segments are dropped, first and last kept. -/
def filterMiddle : List (List Char) → List (List Char)
  | [] => []
  | [a] => [a]
  | a :: b :: rest =>
    a :: ((b :: rest).dropLast.filter (fun x => x ≠ [])) ++
      [(b :: rest).getLastD []]

/-- CPython `urljoin`'s dot-segment resolution loop: `..` pops the last
accumulated segment (ignoring underflow), `.` is dropped, everything else is
appended. -/
def dotResolve (acc : List (List Char)) : List (List Char) → List (List Char)
  | [] => acc
  | seg :: rest =>
    if seg = ['.', '.'] then dotResolve acc.dropLast rest
    else if seg = ['.'] then dotResolve acc rest
    else dotResolve (acc ++ [seg]) rest

/-- CPython `urljoin(base, url)` (params not modelled). -/
def urljoinCore (base url : List Char) : List Char :=
  if base = [] then url
  else if url = [] then base
  else
    let b := urlsplitCore [] base
    let u := urlsplitCore b.scheme url
    if u.scheme ≠ b.scheme ∨ u.scheme ∉ usesRelative then url
    else if u.scheme ∈ usesNetloc ∧ u.netloc ≠ [] then urlunsplit u
    else
      let netloc := if u.scheme ∈ usesNetloc then b.netloc else u.netloc
      if u.path = [] then
        let q := if u.query ≠ [] then u.query else b.query
        urlunsplit ⟨u.scheme, netloc, b.path, q, u.fragment⟩
      else
        let segments :=
          if u.path.head? = some '/' then splitOn '/' u.path
          else
            let baseParts := splitOn '/' b.path
            let baseParts :=
              if baseParts.getLast? ≠ some [] then baseParts.dropLast
              else baseParts
            filterMiddle (baseParts ++ splitOn '/' u.path)
        let resolved := dotResolve [] segments
        let resolved :=
          if segments.getLastD [] = ['.'] ∨ segments.getLastD [] = ['.', '.']
          then resolved ++ [[]] else resolved
        let p := joinSep '/' resolved
        let p := if p = [] then ['/'] else p
        urlunsplit ⟨u.scheme, netloc, p, u.query, u.fragment⟩

/-- CPython `urldefrag(url).url`: if the string contains `#`, re-assemble it
from its parse with the fragment removed; otherwise return it unchanged. -/
def urldefragCore (s : List Char) : List Char :=
  if (splitFirst '#' s).2.isSome then
    let r := urlsplitCore [] s
    urlunsplit ⟨r.scheme, r.netloc, r.path, r.query, []⟩
  else s

/-- `urlparse` as the crawler uses it (scheme/netloc/path/query/fragment). -/
def urlparse (s : String) : SplitResult :=
  urlsplitCore [] s.data

/-- `urljoin` on strings. -/
def urljoin (base url : String) : String :=
  ⟨urljoinCore base.data url.data⟩

/-- `urldefrag(url).url` on strings. -/
def urldefrag (s : String) : String :=
  ⟨urldefragCore s.data⟩

/-! ## Parsed HTML documents (the structure the crawler reads off
`BeautifulSoup`) -/

/-- An HTML element as the crawler sees it: its attribute list.
`tag['href']` raises `KeyError` when the attribute is missing, modelled by
`Tag.attr?` returning `none`. -/
structure Tag where
  attrs : List (String × String)
deriving DecidableEq

/-- Attribute lookup, `tag[k]` / `tag.has_attr(k)`. -/
def Tag.attr? (t : Tag) (k : String) : Option String :=
  (t.attrs.find? (fun p => p.1 == k)).map Prod.snd

/-- A parsed document: `soup.find_all('a')` in document order, and
`soup.find('base')` (`none` when there is no `<base>` element; a found tag
is truthy in bs4, `Tag.__bool__` returns `True`). -/
structure Doc where
  anchors : List Tag
  base : Option Tag
deriving DecidableEq

/-- `[a['href'] for a in page_soup.find_all('a') if a.has_attr('href')]` -/
def hrefList (soup : Doc) : List String :=
  soup.anchors.filterMap (fun a => a.attr? "href")

/-! ## `resolve_link_url` and `extract_links_from_page` (crawler.py 114-134) -/

/-- `resolve_link_url(page_url, page_soup, link_url)`: the base is the
`<base>` tag's href when a `<base>` tag is present, else `page_url`; the
link is joined to the base and the fragment stripped.  A `<base>` tag
without an `href` attribute makes `base_tag['href']` raise `KeyError`,
modelled as `none`. -/
def resolve_link_url (page_url : String) (page_soup : Doc) (link_url : String) :
    Option String :=
  match page_soup.base with
  | some base_tag =>
    match base_tag.attr? "href" with
    | some base_url => some (urldefrag (urljoin base_url link_url))
    | none => none
  | none => some (urldefrag (urljoin page_url link_url))

/-- The admission test of `extract_links_from_page`'s loop:
`parsed_url.scheme in ['', 'http', 'https'] and parsed_url.netloc in
['', site_name]`. -/
def admissibleHref (site_name : List Char) (href : String) : Bool :=
  let parsed := urlparse href
  decide (parsed.scheme ∈ ([[], "http".data, "https".data] : List (List Char)))
    && decide (parsed.netloc ∈ [[], site_name])

/-- The `for link_url in href_list` loop of `extract_links_from_page`,
accumulating the result set; a `KeyError` from `resolve_link_url` aborts
the whole extraction. -/
def extractLoop (page_url : String) (soup : Doc) (site_name : List Char) :
    List String → Finset String → Except Unit (Finset String)
  | [], acc => .ok acc
  | href :: rest, acc =>
    if admissibleHref site_name href then
      match resolve_link_url page_url soup href with
      | some u => extractLoop page_url soup site_name rest (insert u acc)
      | none => .error ()
  else extractLoop page_url soup site_name rest acc

/-- `extract_links_from_page(page_url, html)` on the parsed document. -/
def extract_links_from_page (page_url : String) (soup : Doc) :
    Except Unit (Finset String) :=
  extractLoop page_url soup (urlparse page_url).netloc (hrefList soup) ∅

/-! ## `get_page_links` (crawler.py 104-111) -/

/-- A fetched HTTP response: its declared `content-type` header and parsed
body. -/
structure Response where
  contentType : String
  doc : Doc

/-- Python `s.startswith(pre)`. -/
def pyStartswith (s pre : String) : Bool :=
  decide (s.data.take pre.data.length = pre.data)

/-- `get_page_links(session, url)`; the session is abstracted as a function
from URL to response-or-failure, and a fetch failure propagates. -/
def get_page_links (fetch : String → Except Unit Response) (url : String) :
    Except Unit (Finset String) :=
  match fetch url with
  | .error e => .error e
  | .ok response =>
    if ¬ pyStartswith response.contentType "text/html" then .ok ∅
    else extract_links_from_page url response.doc

/-! ## Worker state constants (crawler.py 55-59) -/

def STATE_UNSPECIFIED : Nat := 0
def STATE_AWAITING_PAGE_GET : Nat := 1
def STATE_AWAITINMG_QUEUE : Nat := 2

/-- The spec's `Idle` state is the code's awaiting-queue state. -/
def stateIdle : Nat := STATE_AWAITINMG_QUEUE
/-- The spec's `Fetching` state is the code's awaiting-page-get state. -/
def stateFetching : Nat := STATE_AWAITING_PAGE_GET
/-- The spec's `Processing` state is the code's unspecified state, set
before the re-enqueue loop. -/
def stateProcessing : Nat := STATE_UNSPECIFIED

/-- `Worker.__init__` sets `self.__state = self.STATE_UNSPECIFIED`. -/
def workerInitialState : Nat := STATE_UNSPECIFIED

/-! ## The re-enqueue loop of `process_queue_item` (crawler.py 96-100) -/

/-- `for link in ... : if link not in enqueued: put_nowait(link);
enqueued.add(link)` — returns the dedup set afterwards and the list of
pushed links in push order. -/
def enqLoop : Finset String → List String → Finset String × List String
  | enq, [] => (enq, [])
  | enq, link :: rest =>
    if link ∈ enq then enqLoop enq rest
    else
      let r := enqLoop (insert link enq) rest
      (r.1, link :: r.2)

/-- `sorted(links_set)`: the elements of the set in ascending string
order. -/
def sortedLinks (links : Finset String) : List String :=
  links.sort (· ≤ ·)

/-- The whole re-enqueue phase for one page's discovered-link set. -/
def processLinks (enqueued links : Finset String) :
    Finset String × List String :=
  enqLoop enqueued (sortedLinks links)

/-! ## `Worker.process_queue_item` (crawler.py 87-101) -/

/-- What one `process_queue_item` call does after the pop, given the popped
`url`: the worker-state assignments in program order, the output-sink
invocation, the pushes, the dedup set afterwards, and whether `task_done`
was called.  A fetch (or extraction) error propagates out as `.error`. -/
structure ItemResult where
  stateTrace : List Nat
  output : String × Finset String
  pushes : List String
  enqueuedAfter : Finset String
  markedDone : Bool
deriving DecidableEq

/-- `Worker.process_queue_item` on a popped `url`:
sets awaiting-queue before the pop and awaiting-page-get before the fetch;
on fetch success invokes the output sink, sets unspecified, runs the
re-enqueue loop and calls `task_done`.  The fetch error is not caught. -/
def process_queue_item (fetch : String → Except Unit Response)
    (enqueued : Finset String) (url : String) : Except Unit ItemResult :=
  match get_page_links fetch url with
  | .error e => .error e
  | .ok links_set =>
    let r := processLinks enqueued links_set
    .ok { stateTrace := [STATE_AWAITINMG_QUEUE, STATE_AWAITING_PAGE_GET,
                         STATE_UNSPECIFIED],
          output := (url, links_set),
          pushes := r.2,
          enqueuedAfter := r.1,
          markedDone := true }

/-! ## `monitor` (crawler.py 148-160) -/

/-- Events of the monitor loop: the sleep at the top of each iteration, the
sampling of every worker's state, and the final `worker.stop()` round. -/
inductive MonEvent where
  | sleep
  | sample (states : List Nat)
  | cancelAll
deriving DecidableEq

/-- `all([worker.state is Worker.STATE_AWAITINMG_QUEUE for worker in
workers])`. -/
def allIdle (states : List Nat) : Bool :=
  states.all (fun st => st == STATE_AWAITINMG_QUEUE)

/-- The monitor loop over the successive state samples the environment
offers it: each iteration sleeps, then samples; on an all-idle sample it
breaks and cancels every worker.  An exhausted sample list models a monitor
still waiting. -/
def monitorRun : List (List Nat) → List MonEvent
  | [] => []
  | states :: rest =>
    if allIdle states then [.sleep, .sample states, .cancelAll]
    else .sleep :: .sample states :: monitorRun rest

/-! ## The crawl as a transition system (crawler.py 36-50, 83-101) -/

/-- Where a worker task is suspended: freshly created (its coroutine not
yet scheduled), blocked on `queue.get()`, awaiting the fetch of `url`, or
terminated (aborted by an uncaught error or cancelled). -/
inductive WPhase where
  | created
  | idle
  | fetching (url : String)
  | dead
deriving DecidableEq

/-- The shared crawl state: the frontier queue contents, the dedup set
`enqueued`, the history of every `put_nowait` ever made (including the
seed), the workers' phases, the output-sink invocations and the number of
`task_done` calls. -/
structure CrawlState where
  queue : List String
  enqueued : Finset String
  pushed : List String
  workers : List WPhase
  outputs : List (String × Finset String)
  dones : Nat

/-- `set_up_tasks`: the root URL is put on the queue and added to the dedup
set, then `num_workers` workers are created. -/
def initState (root_url : String) (num_workers : Nat) : CrawlState :=
  { queue := [root_url], enqueued := {root_url}, pushed := [root_url],
    workers := List.replicate num_workers .created, outputs := [],
    dones := 0 }

/-- Labels naming which worker moved and how. -/
inductive CrawlLab where
  | start (i : Nat)
  | pop (i : Nat)
  | fetched (i : Nat) (links : Finset String)
  | fetchFailed (i : Nat)
  | cancel (i : Nat)

/-- One scheduler step of the crawl.  `fetched` performs, atomically (there
is no `await` between the fetch completing and the next `queue.get()`), the
output-sink call, the re-enqueue loop over the sorted discovered links, the
`task_done`, and the return to the top of `Worker.run`'s loop.
`fetchFailed` is an uncaught fetch error aborting the worker's task, and
`cancel` is the monitor's `worker.stop()`. -/
inductive CrawlStep : CrawlLab → CrawlState → CrawlState → Prop
  | start (s : CrawlState) (i : Nat)
      (h : s.workers[i]? = some .created) :
      CrawlStep (.start i) s { s with workers := s.workers.set i .idle }
  | pop (s : CrawlState) (i : Nat) (url : String) (rest : List String)
      (hw : s.workers[i]? = some .idle) (hq : s.queue = url :: rest) :
      CrawlStep (.pop i) s
        { s with queue := rest, workers := s.workers.set i (.fetching url) }
  | fetched (s : CrawlState) (i : Nat) (url : String) (links : Finset String)
      (hw : s.workers[i]? = some (.fetching url)) :
      CrawlStep (.fetched i links) s
        { s with queue := s.queue ++ (processLinks s.enqueued links).2,
                 enqueued := (processLinks s.enqueued links).1,
                 pushed := s.pushed ++ (processLinks s.enqueued links).2,
                 workers := s.workers.set i .idle,
                 outputs := s.outputs ++ [(url, links)],
                 dones := s.dones + 1 }
  | fetchFailed (s : CrawlState) (i : Nat) (url : String)
      (hw : s.workers[i]? = some (.fetching url)) :
      CrawlStep (.fetchFailed i) s { s with workers := s.workers.set i .dead }
  | cancel (s : CrawlState) (i : Nat) :
      CrawlStep (.cancel i) s { s with workers := s.workers.set i .dead }

/-- Reachability of a crawl state from the seeded initial state. -/
def crawlReaches (root_url : String) (num_workers : Nat) (s : CrawlState) :
    Prop :=
  Relation.ReflTransGen (fun a b => ∃ lab, CrawlStep lab a b)
    (initState root_url num_workers) s

/-! ## Lemmas about the re-enqueue loop -/

theorem enqLoop_fst_mem (enq : Finset String) (L : List String) (u : String) :
    u ∈ (enqLoop enq L).1 ↔ u ∈ enq ∨ u ∈ L := by
  induction L generalizing enq with
  | nil => simp [enqLoop]
  | cons l ls ih =>
    by_cases h : l ∈ enq
    · simp only [enqLoop, if_pos h, ih, List.mem_cons]
      constructor
      · rintro (h' | h') <;> tauto
      · rintro (h' | rfl | h') <;> tauto
    · simp only [enqLoop, if_neg h, ih, Finset.mem_insert, List.mem_cons]
      tauto

theorem enqLoop_snd_mem (enq : Finset String) (L : List String) (u : String) :
    u ∈ (enqLoop enq L).2 ↔ u ∈ L ∧ u ∉ enq := by
  induction L generalizing enq with
  | nil => simp [enqLoop]
  | cons l ls ih =>
    by_cases h : l ∈ enq
    · simp only [enqLoop, if_pos h, ih, List.mem_cons]
      constructor
      · tauto
      · rintro ⟨rfl | h', h''⟩ <;> tauto
    · simp only [enqLoop, if_neg h, ih, Finset.mem_insert, List.mem_cons]
      constructor
      · rintro (rfl | ⟨h', h''⟩) <;> tauto
      · rintro ⟨rfl | h', h''⟩
        · exact Or.inl rfl
        · by_cases hu : u = l
          · exact Or.inl hu
          · exact Or.inr ⟨h', by tauto⟩

theorem enqLoop_snd_sublist (enq : Finset String) (L : List String) :
    List.Sublist (enqLoop enq L).2 L := by
  induction L generalizing enq with
  | nil => simp [enqLoop]
  | cons l ls ih =>
    by_cases h : l ∈ enq
    · simpa only [enqLoop, if_pos h] using (ih enq).cons l
    · simpa only [enqLoop, if_neg h] using (ih (insert l enq)).cons₂ l

/-! ## Lemmas about `processLinks` -/

theorem sortedLinks_sorted (links : Finset String) :
    (sortedLinks links).Sorted (· < ·) :=
  Finset.sort_sorted_lt links

theorem sortedLinks_mem (links : Finset String) (u : String) :
    u ∈ sortedLinks links ↔ u ∈ links :=
  Finset.mem_sort _

/-- Python's `sorted` is characterised by its output: the strictly sorted
list with the set's membership. -/
theorem sortedLinks_eq_of (links : Finset String) (l : List String)
    (hmem : ∀ x, x ∈ l ↔ x ∈ links) (hs : l.Sorted (· < ·)) :
    sortedLinks links = l := by
  refine List.eq_of_perm_of_sorted (r := (· ≤ ·)) ?_
    (sortedLinks_sorted links).le_of_lt hs.le_of_lt
  have hnd : (sortedLinks links).Nodup := (sortedLinks_sorted links).nodup
  rw [List.perm_ext_iff_of_nodup hnd hs.nodup]
  intro a
  rw [sortedLinks_mem]
  exact (hmem a).symm

theorem processLinks_fst_mem (enq links : Finset String) (u : String) :
    u ∈ (processLinks enq links).1 ↔ u ∈ enq ∨ u ∈ links := by
  rw [processLinks, enqLoop_fst_mem, sortedLinks_mem]

theorem processLinks_fst (enq links : Finset String) :
    (processLinks enq links).1 = enq ∪ links := by
  ext u
  rw [processLinks_fst_mem, Finset.mem_union]

theorem processLinks_snd_mem (enq links : Finset String) (u : String) :
    u ∈ (processLinks enq links).2 ↔ u ∈ links ∧ u ∉ enq := by
  rw [processLinks, enqLoop_snd_mem, sortedLinks_mem]

theorem processLinks_snd_sorted (enq links : Finset String) :
    ((processLinks enq links).2).Sorted (· < ·) :=
  (sortedLinks_sorted links).sublist (enqLoop_snd_sublist enq (sortedLinks links))

theorem processLinks_snd_nodup (enq links : Finset String) :
    ((processLinks enq links).2).Nodup :=
  (processLinks_snd_sorted enq links).nodup

theorem processLinks_empty (enq : Finset String) :
    processLinks enq ∅ = (enq, []) := by
  rw [processLinks, show sortedLinks ∅ = [] from Finset.sort_empty _]
  rfl

/-- The concrete scenario of the tests: popping a page already in the dedup
set whose fetch discovers `foo.html`, `bar.html`, `foo.html`. -/
theorem processLinks_example :
    processLinks {"index.html"} {"foo.html", "bar.html", "foo.html"}
      = ({"index.html", "foo.html", "bar.html"}, ["bar.html", "foo.html"]) := by
  have hsort : sortedLinks {"foo.html", "bar.html", "foo.html"}
      = ["bar.html", "foo.html"] := by
    apply sortedLinks_eq_of
    · intro x
      simp only [List.mem_cons, List.mem_singleton, Finset.mem_insert,
        Finset.mem_singleton, List.not_mem_nil, or_false]
      tauto
    · simp only [List.sorted_cons, List.mem_singleton, List.sorted_singleton,
        and_true, forall_eq]
      rw [String.lt_iff_toList_lt]
      decide
  have h1 : ("bar.html" : String) ∉ ({"index.html"} : Finset String) := by
    decide
  have h2 : ("foo.html" : String)
      ∉ (insert "bar.html" {"index.html"} : Finset String) := by decide
  rw [processLinks, hsort]
  simp only [enqLoop, if_neg h1, if_neg h2]
  refine Prod.ext ?_ rfl
  ext x
  simp only [Finset.mem_insert, Finset.mem_singleton]
  tauto

/-- **C3.** Processing a popped URL already in the dedup set: the pushes
are in sorted order, are exactly the discovered links not already in the
dedup set (so in-page duplicates collapse and the page's own URL is not
re-enqueued), and the dedup set afterwards is the old set union the
discovered set; in the concrete `index.html` scenario exactly two pushes
occur, `bar.html` then `foo.html`. -/
theorem C3_sorted_enqueue_dedup (enqueued links : Finset String)
    (url : String) (hurl : url ∈ enqueued) :
    ((processLinks enqueued links).2.Sorted (· < ·)
      ∧ (∀ l ∈ (processLinks enqueued links).2, l ∈ links ∧ l ∉ enqueued)
      ∧ url ∉ (processLinks enqueued links).2
      ∧ (processLinks enqueued links).1 = enqueued ∪ links)
    ∧ processLinks {"index.html"} {"foo.html", "bar.html", "foo.html"}
        = ({"index.html", "foo.html", "bar.html"}, ["bar.html", "foo.html"]) := by
  refine ⟨⟨processLinks_snd_sorted enqueued links, ?_, ?_, processLinks_fst enqueued links⟩,
    processLinks_example⟩
  · intro l hl
    exact (processLinks_snd_mem enqueued links l).1 hl
  · intro hmem
    exact ((processLinks_snd_mem enqueued links url).1 hmem).2 hurl

/-- Witness for C3 at the concrete scenario. -/
theorem C3_sorted_enqueue_dedup_witness :
    ("index.html" : String) ∈ ({"index.html"} : Finset String)
    ∧ ((processLinks {"index.html"} {"foo.html", "bar.html", "foo.html"}).2.Sorted (· < ·)
        ∧ (∀ l ∈ (processLinks {"index.html"} {"foo.html", "bar.html", "foo.html"}).2,
            l ∈ ({"foo.html", "bar.html", "foo.html"} : Finset String) ∧ l ∉ ({"index.html"} : Finset String))
        ∧ "index.html" ∉ (processLinks {"index.html"} {"foo.html", "bar.html", "foo.html"}).2
        ∧ (processLinks {"index.html"} {"foo.html", "bar.html", "foo.html"}).1
            = {"index.html"} ∪ {"foo.html", "bar.html", "foo.html"})
    ∧ processLinks {"index.html"} {"foo.html", "bar.html", "foo.html"}
        = ({"index.html", "foo.html", "bar.html"}, ["bar.html", "foo.html"]) :=
  ⟨by decide,
   (C3_sorted_enqueue_dedup {"index.html"} {"foo.html", "bar.html", "foo.html"}
     "index.html" (by decide)).1,
   (C3_sorted_enqueue_dedup {"index.html"} {"foo.html", "bar.html", "foo.html"}
     "index.html" (by decide)).2⟩

/-! ## Per-item worker behaviour -/

theorem get_page_links_not_html (fetch : String → Except Unit Response)
    (resp : Response) (url : String) (hfetch : fetch url = .ok resp)
    (hct : pyStartswith resp.contentType "text/html" = false) :
    get_page_links fetch url = .ok ∅ := by
  rw [get_page_links, hfetch]
  simp [hct]

theorem process_queue_item_of_links (fetch : String → Except Unit Response)
    (enqueued : Finset String) (url : String) (links : Finset String)
    (hlinks : get_page_links fetch url = .ok links) :
    process_queue_item fetch enqueued url =
      .ok { stateTrace := [STATE_AWAITINMG_QUEUE, STATE_AWAITING_PAGE_GET,
                           STATE_UNSPECIFIED],
            output := (url, links),
            pushes := (processLinks enqueued links).2,
            enqueuedAfter := (processLinks enqueued links).1,
            markedDone := true } := by
  rw [process_queue_item, hlinks]

/-- **C7.** A response whose declared content type is not an HTML media
type yields the empty link set without an error, and the worker finishes
the item normally: the output sink is invoked with `(url, ∅)`, nothing is
pushed, the dedup set is unchanged and `task_done` is called. -/
theorem C7_non_html_zero_links (fetch : String → Except Unit Response)
    (resp : Response) (enqueued : Finset String) (url : String)
    (hfetch : fetch url = .ok resp)
    (hct : pyStartswith resp.contentType "text/html" = false) :
    get_page_links fetch url = .ok ∅
    ∧ process_queue_item fetch enqueued url =
        .ok { stateTrace := [STATE_AWAITINMG_QUEUE, STATE_AWAITING_PAGE_GET,
                             STATE_UNSPECIFIED],
              output := (url, ∅),
              pushes := [],
              enqueuedAfter := enqueued,
              markedDone := true } := by
  have h0 : get_page_links fetch url = .ok ∅ :=
    get_page_links_not_html fetch resp url hfetch hct
  refine ⟨h0, ?_⟩
  rw [process_queue_item_of_links fetch enqueued url ∅ h0, processLinks_empty]

/-- Witness for C7: a `application/pdf` response. -/
theorem C7_non_html_zero_links_witness :
    ((fun _ : String =>
        (Except.ok { contentType := "application/pdf",
                     doc := { anchors := [], base := none } }
          : Except Unit Response)) "u"
      = (Except.ok { contentType := "application/pdf",
                     doc := { anchors := [], base := none } }
          : Except Unit Response))
    ∧ (get_page_links
        (fun _ : String =>
          Except.ok { contentType := "application/pdf",
                      doc := { anchors := [], base := none } : Response }) "u"
        = .ok ∅
      ∧ process_queue_item
          (fun _ : String =>
            Except.ok { contentType := "application/pdf",
                        doc := { anchors := [], base := none } : Response })
          ∅ "u" =
          .ok { stateTrace := [STATE_AWAITINMG_QUEUE, STATE_AWAITING_PAGE_GET,
                               STATE_UNSPECIFIED],
                output := ("u", ∅),
                pushes := [],
                enqueuedAfter := ∅,
                markedDone := true }) :=
  ⟨rfl, C7_non_html_zero_links _ _ ∅ "u" rfl (by decide)⟩

/-- **C8.** A fetch failure is not caught: it propagates out of
`get_page_links` and `process_queue_item` (so no output, no push, no
dedup-set change and no `task_done` happen for the item), and on the crawl
transition system the failing worker's task dies while queue, dedup set,
push history, outputs and done-count are untouched. -/
theorem C8_fetch_failure_propagates (fetch : String → Except Unit Response)
    (enqueued : Finset String) (url : String)
    (hfail : fetch url = .error ()) :
    get_page_links fetch url = .error ()
    ∧ process_queue_item fetch enqueued url = .error ()
    ∧ (∀ (s s' : CrawlState) (i : Nat), CrawlStep (.fetchFailed i) s s' →
        s'.queue = s.queue ∧ s'.enqueued = s.enqueued
        ∧ s'.pushed = s.pushed ∧ s'.outputs = s.outputs ∧ s'.dones = s.dones
        ∧ s'.workers = s.workers.set i WPhase.dead) := by
  have h0 : get_page_links fetch url = .error () := by
    rw [get_page_links, hfail]
  refine ⟨h0, by rw [process_queue_item, h0], ?_⟩
  intro s s' i hstep
  cases hstep
  exact ⟨rfl, rfl, rfl, rfl, rfl, rfl⟩

/-- Witness for C8: a fetch that always fails. -/
theorem C8_fetch_failure_propagates_witness :
    ((fun _ : String => (Except.error () : Except Unit Response)) "u"
      = Except.error ())
    ∧ (get_page_links (fun _ : String => (Except.error () : Except Unit Response)) "u"
        = .error ()
      ∧ process_queue_item
          (fun _ : String => (Except.error () : Except Unit Response)) ∅ "u"
        = .error ()
      ∧ (∀ (s s' : CrawlState) (i : Nat), CrawlStep (.fetchFailed i) s s' →
          s'.queue = s.queue ∧ s'.enqueued = s.enqueued
          ∧ s'.pushed = s.pushed ∧ s'.outputs = s.outputs ∧ s'.dones = s.dones
          ∧ s'.workers = s.workers.set i WPhase.dead)) :=
  ⟨rfl, C8_fetch_failure_propagates _ ∅ "u" rfl⟩

/-- **C9 counterexample.** The claim says a newly constructed Worker starts
in `Idle`; `Worker.__init__` actually sets `STATE_UNSPECIFIED`, which is
the `Processing` marker, not the awaiting-queue (`Idle`) state. -/
theorem C9_initial_state_not_idle : workerInitialState ≠ stateIdle := by
  decide

/-- **C9 (amended).** A newly constructed Worker's state is
`STATE_UNSPECIFIED` (the integer also used for `Processing`), not `Idle`;
once the task runs, each `process_queue_item` performs exactly the state
assignments `Idle` (before the pop), `Fetching` (after the pop, before the
fetch), `Processing` (on fetch completion, before the re-enqueue loop), in
that order, calls `task_done`, and the worker is back at `Idle`, blocked on
the queue, for the next item. -/
theorem C9_amended_initial_unspecified_then_cycle :
    workerInitialState = stateProcessing
    ∧ (∀ (fetch : String → Except Unit Response) (enqueued : Finset String)
        (url : String) (r : ItemResult),
        process_queue_item fetch enqueued url = .ok r →
        r.stateTrace = [stateIdle, stateFetching, stateProcessing]
        ∧ r.markedDone = true)
    ∧ (∀ (s s' : CrawlState) (i : Nat) (links : Finset String),
        CrawlStep (.fetched i links) s s' →
        s'.workers = s.workers.set i WPhase.idle) := by
  refine ⟨rfl, ?_, ?_⟩
  · intro fetch enqueued url r h
    rw [process_queue_item] at h
    cases hlinks : get_page_links fetch url with
    | error e => rw [hlinks] at h; cases h
    | ok links =>
      rw [hlinks] at h
      cases h
      exact ⟨rfl, rfl⟩
  · intro s s' i links hstep
    cases hstep
    rfl

/-- Witness for C9 (amended), at a concrete non-HTML fetch. -/
theorem C9_amended_initial_unspecified_then_cycle_witness :
    (process_queue_item
        (fun _ : String =>
          Except.ok { contentType := "x",
                      doc := { anchors := [], base := none } : Response })
        ∅ "u" =
      .ok { stateTrace := [STATE_AWAITINMG_QUEUE, STATE_AWAITING_PAGE_GET,
                           STATE_UNSPECIFIED],
            output := ("u", ∅),
            pushes := [],
            enqueuedAfter := ∅,
            markedDone := true })
    ∧ ({ stateTrace := [STATE_AWAITINMG_QUEUE, STATE_AWAITING_PAGE_GET,
                        STATE_UNSPECIFIED],
         output := ("u", ∅), pushes := [], enqueuedAfter := ∅,
         markedDone := true } : ItemResult).stateTrace
        = [stateIdle, stateFetching, stateProcessing] := by
  have h : process_queue_item
      (fun _ : String =>
        Except.ok { contentType := "x",
                    doc := { anchors := [], base := none } : Response })
      ∅ "u" =
      .ok { stateTrace := [STATE_AWAITINMG_QUEUE, STATE_AWAITING_PAGE_GET,
                           STATE_UNSPECIFIED],
            output := ("u", ∅), pushes := [], enqueuedAfter := ∅,
            markedDone := true } := by
    rw [process_queue_item_of_links _ ∅ "u" ∅
      (get_page_links_not_html _
        { contentType := "x", doc := { anchors := [], base := none } } "u"
        rfl (by decide)), processLinks_empty]
  exact ⟨h,
    (C9_amended_initial_unspecified_then_cycle.2.1 _ ∅ "u" _ h).1⟩

/-! ## Extraction aborts when the base tag lacks an href -/

theorem extractLoop_error_of_resolve_none (page_url : String) (soup : Doc)
    (site : List Char)
    (hres : ∀ href, resolve_link_url page_url soup href = none) :
    ∀ (L : List String) (acc : Finset String),
      (∃ h ∈ L, admissibleHref site h = true) →
      extractLoop page_url soup site L acc = .error () := by
  intro L
  induction L with
  | nil => rintro acc ⟨h, hmem, _⟩; cases hmem
  | cons href rest ih =>
    rintro acc ⟨h, hmem, hadm⟩
    by_cases hA : admissibleHref site href
    · rw [extractLoop, if_pos hA, hres href]
    · rw [extractLoop, if_neg hA]
      rcases List.mem_cons.1 hmem with rfl | hmem'
      · exact absurd hadm hA
      · exact ih acc ⟨h, hmem', hadm⟩

/-- **C10.** A document with a `<base>` element lacking an `href` attribute
makes `base_tag['href']` raise: extraction of every link on the page is
aborted (no result set is returned) as soon as one admitted anchor href is
present. -/
theorem C10_base_without_href_raises (page_url : String) (soup : Doc)
    (bt : Tag) (hb : soup.base = some bt) (hh : bt.attr? "href" = none)
    (ha : ∃ h ∈ hrefList soup,
      admissibleHref (urlparse page_url).netloc h = true) :
    extract_links_from_page page_url soup = .error () := by
  rw [extract_links_from_page]
  refine extractLoop_error_of_resolve_none page_url soup _ ?_ _ _ ha
  intro href
  simp [resolve_link_url, hb, hh]

/-- Witness for C10: a page with `<base>` (no href) and one same-site
anchor. -/
theorem C10_base_without_href_raises_witness :
    (({ anchors := [{ attrs := [("href", "foo.html")] }],
        base := some { attrs := [] } } : Doc).base
      = some { attrs := [] })
    ∧ (({ attrs := [] } : Tag).attr? "href" = none)
    ∧ (∃ h ∈ hrefList { anchors := [{ attrs := [("href", "foo.html")] }],
                        base := some { attrs := [] } },
        admissibleHref (urlparse "http://h/index.html").netloc h = true)
    ∧ extract_links_from_page "http://h/index.html"
        { anchors := [{ attrs := [("href", "foo.html")] }],
          base := some { attrs := [] } } = .error () :=
  ⟨rfl, rfl, ⟨"foo.html", by decide, by decide⟩,
   C10_base_without_href_raises "http://h/index.html" _ { attrs := [] }
     rfl rfl ⟨"foo.html", by decide, by decide⟩⟩

/-! ## Monitor lemmas -/

/-- The event trace of monitor iterations that observe a not-yet-converged
crawl: a sleep then a sample, repeatedly. -/
def monBlocks (samples : List (List Nat)) : List MonEvent :=
  (samples.map (fun st => [MonEvent.sleep, MonEvent.sample st])).flatten

theorem monitorRun_no_idle (samples : List (List Nat))
    (h : ∀ st ∈ samples, allIdle st = false) :
    monitorRun samples = monBlocks samples := by
  induction samples with
  | nil => rfl
  | cons st rest ih =>
    have hst : allIdle st = false := h st (List.mem_cons_self st rest)
    rw [monitorRun, if_neg (by simp [hst])]
    rw [ih fun x hx => h x (List.mem_cons_of_mem st hx)]
    rfl

theorem cancel_not_mem_monBlocks (samples : List (List Nat)) :
    MonEvent.cancelAll ∉ monBlocks samples := by
  intro hmem
  rw [monBlocks, List.mem_flatten] at hmem
  obtain ⟨l, hl, hmem⟩ := hmem
  rw [List.mem_map] at hl
  obtain ⟨st, _, rfl⟩ := hl
  simp at hmem

theorem monitorRun_first_idle (pre : List (List Nat)) (st : List Nat)
    (rest : List (List Nat)) (hpre : ∀ x ∈ pre, allIdle x = false)
    (hst : allIdle st = true) :
    monitorRun (pre ++ st :: rest) =
      monBlocks pre ++ [.sleep, .sample st, .cancelAll] := by
  induction pre with
  | nil => rw [List.nil_append, monitorRun, if_pos hst]; rfl
  | cons x xs ih =>
    have hx : allIdle x = false := hpre x (List.mem_cons_self x xs)
    rw [List.cons_append, monitorRun, if_neg (by simp [hx]),
      ih fun y hy => hpre y (List.mem_cons_of_mem x hy)]
    rfl

theorem monitorRun_shape (samples : List (List Nat)) :
    monitorRun samples = [] ∨
      ∃ t, monitorRun samples = MonEvent.sleep :: t := by
  cases samples with
  | nil => exact Or.inl rfl
  | cons st rest =>
    rw [monitorRun]
    by_cases h : allIdle st
    · exact Or.inr ⟨_, by rw [if_pos h]⟩
    · exact Or.inr ⟨_, by rw [if_neg h]⟩

theorem monitorRun_sample_after_sleep (samples : List (List Nat)) :
    ∀ (n : Nat) (st : List Nat),
      (monitorRun samples)[n]? = some (MonEvent.sample st) →
      1 ≤ n ∧ (monitorRun samples)[n - 1]? = some MonEvent.sleep := by
  induction samples with
  | nil => intro n st h; simp [monitorRun] at h
  | cons s rest ih =>
    intro n st h
    by_cases hs : allIdle s
    · rw [monitorRun, if_pos hs] at h ⊢
      rcases n with _ | _ | _ | n <;> simp_all
    · rw [monitorRun, if_neg hs] at h ⊢
      rcases n with _ | _ | n
      · simp at h
      · exact ⟨le_refl 1, rfl⟩
      · simp only [List.getElem?_cons_succ] at h
        obtain ⟨h1, h2⟩ := ih n st h
        obtain ⟨m, rfl⟩ : ∃ m, n = m + 1 := ⟨n - 1, by omega⟩
        refine ⟨by omega, ?_⟩
        simpa using h2

theorem monitorRun_cancel_after_idle_sample (samples : List (List Nat)) :
    ∀ n : Nat, (monitorRun samples)[n]? = some MonEvent.cancelAll →
      ∃ st, (monitorRun samples)[n - 1]? = some (MonEvent.sample st)
        ∧ allIdle st = true := by
  induction samples with
  | nil => intro n h; simp [monitorRun] at h
  | cons s rest ih =>
    intro n h
    by_cases hs : allIdle s
    · rw [monitorRun, if_pos hs] at h ⊢
      rcases n with _ | _ | _ | n
      · simp at h
      · simp at h
      · exact ⟨s, by simp, hs⟩
      · simp at h
    · rw [monitorRun, if_neg hs] at h ⊢
      rcases n with _ | _ | n
      · simp at h
      · simp at h
      · simp only [List.getElem?_cons_succ] at h
        obtain ⟨st, hst, hidle⟩ := ih n h
        refine ⟨st, ?_, hidle⟩
        rcases n with _ | m
        · rw [hst] at h
          simp at h
        · simpa using hst

/-- **C2.** The monitor issues the cancellation signal only immediately
after a sample in which every worker state is the awaiting-queue (`Idle`)
value — never after a sample showing a worker in `Fetching` or
`Processing`; it cancels exactly at the first all-idle sample (emitting one
sleep/sample block per earlier sample and nothing further); with no
all-idle sample it never cancels; and every sample is preceded by a sleep,
so the first check happens only after an initial delay. -/
theorem C2_monitor_cancel_exactly_on_all_idle (samples : List (List Nat)) :
    (∀ n : Nat, (monitorRun samples)[n]? = some MonEvent.cancelAll →
      ∃ st, (monitorRun samples)[n - 1]? = some (MonEvent.sample st)
        ∧ allIdle st = true
        ∧ ∀ x ∈ st, x = stateIdle ∧ x ≠ stateFetching ∧ x ≠ stateProcessing)
    ∧ (∀ (n : Nat) (st : List Nat),
        (monitorRun samples)[n]? = some (MonEvent.sample st) →
        1 ≤ n ∧ (monitorRun samples)[n - 1]? = some MonEvent.sleep)
    ∧ ((∀ st ∈ samples, allIdle st = false) →
        monitorRun samples = monBlocks samples
        ∧ MonEvent.cancelAll ∉ monitorRun samples)
    ∧ (∀ (pre : List (List Nat)) (st : List Nat) (rest : List (List Nat)),
        samples = pre ++ st :: rest →
        (∀ x ∈ pre, allIdle x = false) → allIdle st = true →
        monitorRun samples =
          monBlocks pre ++ [.sleep, .sample st, .cancelAll]) := by
  refine ⟨?_, monitorRun_sample_after_sleep samples, ?_, ?_⟩
  · intro n h
    obtain ⟨st, hst, hidle⟩ := monitorRun_cancel_after_idle_sample samples n h
    refine ⟨st, hst, hidle, ?_⟩
    intro x hx
    have := List.all_eq_true.1 hidle x hx
    have hx2 : x = STATE_AWAITINMG_QUEUE := by simpa using this
    subst hx2
    exact ⟨rfl, by decide, by decide⟩
  · intro h
    exact ⟨monitorRun_no_idle samples h, by
      rw [monitorRun_no_idle samples h]
      exact cancel_not_mem_monBlocks samples⟩
  · intro pre st rest hsplit hpre hst
    rw [hsplit]
    exact monitorRun_first_idle pre st rest hpre hst

/-- Witness for C2: one sample with a fetching worker, then an all-idle
sample. -/
theorem C2_monitor_cancel_exactly_on_all_idle_witness :
    monitorRun [[STATE_AWAITING_PAGE_GET], [STATE_AWAITINMG_QUEUE]] =
      monBlocks [[STATE_AWAITING_PAGE_GET]]
        ++ [.sleep, .sample [STATE_AWAITINMG_QUEUE], .cancelAll] :=
  (C2_monitor_cancel_exactly_on_all_idle
      [[STATE_AWAITING_PAGE_GET], [STATE_AWAITINMG_QUEUE]]).2.2.2
    [[STATE_AWAITING_PAGE_GET]] [STATE_AWAITINMG_QUEUE] [] rfl
    (by decide) (by decide)

/-! ## The dedup-set invariant of the crawl -/

/-- Invariant: the push history has no duplicates and the dedup set is
exactly the set of ever-pushed URLs. -/
def DedupInv (s : CrawlState) : Prop :=
  s.pushed.Nodup ∧ ∀ u, u ∈ s.pushed ↔ u ∈ s.enqueued

theorem dedupInv_init (root_url : String) (num_workers : Nat) :
    DedupInv (initState root_url num_workers) := by
  constructor
  · simp [initState]
  · intro u
    simp [initState]

theorem crawlStep_enqueued_mono {lab : CrawlLab} {s s' : CrawlState}
    (h : CrawlStep lab s s') : ∀ u ∈ s.enqueued, u ∈ s'.enqueued := by
  cases h with
  | fetched s i url links hw =>
    intro u hu
    exact (processLinks_fst_mem _ _ u).2 (Or.inl hu)
  | _ => exact fun u hu => hu

theorem crawlStep_pushed_mono {lab : CrawlLab} {s s' : CrawlState}
    (h : CrawlStep lab s s') : ∀ u ∈ s.pushed, u ∈ s'.pushed := by
  cases h with
  | fetched s i url links hw =>
    intro u hu
    exact List.mem_append.2 (Or.inl hu)
  | _ => exact fun u hu => hu

theorem crawlStep_pushed_new {lab : CrawlLab} {s s' : CrawlState}
    (h : CrawlStep lab s s') :
    ∀ u ∈ s'.pushed, u ∈ s.pushed ∨ (u ∉ s.enqueued ∧ u ∈ s'.enqueued) := by
  cases h with
  | fetched s i url links hw =>
    intro u hu
    rcases List.mem_append.1 hu with hu | hu
    · exact Or.inl hu
    · obtain ⟨hl, he⟩ := (processLinks_snd_mem _ _ u).1 hu
      exact Or.inr ⟨he, (processLinks_fst_mem _ _ u).2 (Or.inr hl)⟩
  | _ => exact fun u hu => Or.inl hu

theorem crawlStep_dedupInv {lab : CrawlLab} {s s' : CrawlState}
    (hinv : DedupInv s) (h : CrawlStep lab s s') : DedupInv s' := by
  obtain ⟨hnd, hiff⟩ := hinv
  cases h with
  | fetched s i url links hw =>
    constructor
    · rw [List.nodup_append]
      refine ⟨hnd, processLinks_snd_nodup _ _, ?_⟩
      intro u hu hu2
      exact ((processLinks_snd_mem _ _ u).1 hu2).2 ((hiff u).1 hu)
    · intro u
      rw [List.mem_append, processLinks_fst_mem]
      constructor
      · rintro (hu | hu)
        · exact Or.inl ((hiff u).1 hu)
        · exact Or.inr ((processLinks_snd_mem _ _ u).1 hu).1
      · rintro (hu | hu)
        · exact Or.inl ((hiff u).2 hu)
        · by_cases he : u ∈ s.enqueued
          · exact Or.inl ((hiff u).2 he)
          · exact Or.inr ((processLinks_snd_mem _ _ u).2 ⟨hu, he⟩)
  | _ => exact ⟨hnd, hiff⟩

theorem crawlReaches_dedupInv (root_url : String) (num_workers : Nat)
    (s : CrawlState) (h : crawlReaches root_url num_workers s) :
    DedupInv s ∧ root_url ∈ s.pushed := by
  induction h with
  | refl =>
    refine ⟨dedupInv_init root_url num_workers, ?_⟩
    simp [initState]
  | tail _hab hstep ih =>
    obtain ⟨inv, hroot⟩ := ih
    obtain ⟨lab, hstep⟩ := hstep
    exact ⟨crawlStep_dedupInv inv hstep,
      crawlStep_pushed_mono hstep root_url hroot⟩

/-- **C1.** In every reachable crawl state: no URL has ever been pushed
twice, the dedup set is exactly the set of pushed URLs (each push adds its
URL to the dedup set at that moment), the root is seeded into queue and
dedup set at start and stays pushed, every step only grows the dedup set
(nothing is ever removed), and a step pushes a URL only if it was absent
from the dedup set before the step. -/
theorem C1_push_at_most_once (root_url : String) (num_workers : Nat)
    (s : CrawlState) (hreach : crawlReaches root_url num_workers s) :
    s.pushed.Nodup
    ∧ (∀ u, u ∈ s.pushed ↔ u ∈ s.enqueued)
    ∧ root_url ∈ s.pushed ∧ root_url ∈ s.enqueued
    ∧ (initState root_url num_workers).queue = [root_url]
    ∧ (initState root_url num_workers).enqueued = {root_url}
    ∧ (∀ (lab : CrawlLab) (s' : CrawlState), CrawlStep lab s s' →
        (∀ u ∈ s.enqueued, u ∈ s'.enqueued)
        ∧ (∀ u ∈ s'.pushed,
            u ∈ s.pushed ∨ (u ∉ s.enqueued ∧ u ∈ s'.enqueued))) := by
  obtain ⟨⟨hnd, hiff⟩, hroot⟩ :=
    crawlReaches_dedupInv root_url num_workers s hreach
  exact ⟨hnd, hiff, hroot, (hiff root_url).1 hroot, rfl, rfl,
    fun lab s' hstep =>
      ⟨crawlStep_enqueued_mono hstep, crawlStep_pushed_new hstep⟩⟩

/-- Witness for C1 at the freshly seeded initial state. -/
theorem C1_push_at_most_once_witness :
    crawlReaches "http://h/" 2 (initState "http://h/" 2)
    ∧ ((initState "http://h/" 2).pushed.Nodup
      ∧ (∀ u, u ∈ (initState "http://h/" 2).pushed
          ↔ u ∈ (initState "http://h/" 2).enqueued)
      ∧ "http://h/" ∈ (initState "http://h/" 2).pushed
      ∧ "http://h/" ∈ (initState "http://h/" 2).enqueued
      ∧ (initState "http://h/" 2).queue = ["http://h/"]
      ∧ (initState "http://h/" 2).enqueued = {"http://h/"}
      ∧ (∀ (lab : CrawlLab) (s' : CrawlState),
          CrawlStep lab (initState "http://h/" 2) s' →
          (∀ u ∈ (initState "http://h/" 2).enqueued, u ∈ s'.enqueued)
          ∧ (∀ u ∈ s'.pushed,
              u ∈ (initState "http://h/" 2).pushed
              ∨ (u ∉ (initState "http://h/" 2).enqueued
                  ∧ u ∈ s'.enqueued)))) :=
  ⟨Relation.ReflTransGen.refl,
   C1_push_at_most_once "http://h/" 2 (initState "http://h/" 2)
     Relation.ReflTransGen.refl⟩

/-! ## Characterisation of successful extraction -/

theorem extractLoop_ok_mem (page_url : String) (soup : Doc)
    (site : List Char) :
    ∀ (L : List String) (acc R : Finset String),
      extractLoop page_url soup site L acc = .ok R →
      ∀ u, u ∈ R ↔ u ∈ acc ∨ ∃ h ∈ L, admissibleHref site h = true
        ∧ resolve_link_url page_url soup h = some u := by
  intro L
  induction L with
  | nil =>
    intro acc R h u
    rw [extractLoop] at h
    cases h
    simp
  | cons href rest ih =>
    intro acc R h u
    by_cases hA : admissibleHref site href
    · rw [extractLoop, if_pos hA] at h
      cases hres : resolve_link_url page_url soup href with
      | none => rw [hres] at h; cases h
      | some v =>
        rw [hres] at h
        rw [ih _ R h u]
        constructor
        · rintro (hin | ⟨x, hm, hp⟩)
          · rcases Finset.mem_insert.1 hin with rfl | hin
            · exact Or.inr ⟨href, List.mem_cons_self href rest, hA, hres⟩
            · exact Or.inl hin
          · exact Or.inr ⟨x, List.mem_cons_of_mem href hm, hp⟩
        · rintro (hin | ⟨x, hm, hadm, hres'⟩)
          · exact Or.inl (Finset.mem_insert_of_mem hin)
          · rcases List.mem_cons.1 hm with rfl | hm
            · rw [hres] at hres'
              injection hres' with hv
              exact Or.inl (hv ▸ Finset.mem_insert_self v acc)
            · exact Or.inr ⟨x, hm, hadm, hres'⟩
    · rw [extractLoop, if_neg hA] at h
      rw [ih _ R h u]
      constructor
      · rintro (hin | ⟨x, hm, hp⟩)
        · exact Or.inl hin
        · exact Or.inr ⟨x, List.mem_cons_of_mem href hm, hp⟩
      · rintro (hin | ⟨x, hm, hadm, hres'⟩)
        · exact Or.inl hin
        · rcases List.mem_cons.1 hm with rfl | hm
          · exact absurd hadm hA
          · exact Or.inr ⟨x, hm, hadm, hres'⟩

/-- **C4.** A URL is in a successful extraction result exactly when it is
the resolution of some anchor href (anchors without an href contribute
nothing to `hrefList`) whose parsed scheme is empty, `http` or `https` and
whose parsed host is empty or equal to the page's host; the admission test
is exactly that conjunction, so `mailto:` hrefs and hrefs naming a
different host are never admitted. -/
theorem C4_admission_filter (page_url : String) (soup : Doc)
    (R : Finset String)
    (hok : extract_links_from_page page_url soup = .ok R) :
    (∀ u, u ∈ R ↔ ∃ h ∈ hrefList soup,
        admissibleHref (urlparse page_url).netloc h = true
        ∧ resolve_link_url page_url soup h = some u)
    ∧ (∀ href, admissibleHref (urlparse page_url).netloc href = true ↔
        ((urlparse href).scheme
            ∈ ([[], "http".data, "https".data] : List (List Char))
          ∧ (urlparse href).netloc ∈ [[], (urlparse page_url).netloc]))
    ∧ (∀ href, (urlparse href).scheme = "mailto".data →
        admissibleHref (urlparse page_url).netloc href = false)
    ∧ (∀ href, (urlparse href).netloc ∉ [[], (urlparse page_url).netloc] →
        admissibleHref (urlparse page_url).netloc href = false) := by
  refine ⟨?_, ?_, ?_, ?_⟩
  · intro u
    rw [extract_links_from_page] at hok
    rw [extractLoop_ok_mem page_url soup _ _ _ R hok u]
    simp
  · intro href
    rw [admissibleHref]
    simp
  · intro href hm
    rw [admissibleHref]
    simp [hm]
  · intro href hm
    rw [admissibleHref]
    simp [hm]

/-- Witness for C4: a page with one relative anchor. -/
theorem C4_admission_filter_witness :
    (extract_links_from_page "https://h/a"
        { anchors := [{ attrs := [("href", "b.html")] }], base := none }
      = .ok {"https://h/b.html"})
    ∧ (∀ u, u ∈ ({"https://h/b.html"} : Finset String) ↔
        ∃ h ∈ hrefList { anchors := [{ attrs := [("href", "b.html")] }],
                         base := none },
          admissibleHref (urlparse "https://h/a").netloc h = true
          ∧ resolve_link_url "https://h/a"
              { anchors := [{ attrs := [("href", "b.html")] }], base := none }
              h = some u)
    ∧ (∀ href, (urlparse href).scheme = "mailto".data →
        admissibleHref (urlparse "https://h/a").netloc href = false) :=
  ⟨rfl,
   (C4_admission_filter "https://h/a"
     { anchors := [{ attrs := [("href", "b.html")] }], base := none }
     {"https://h/b.html"} rfl).1,
   (C4_admission_filter "https://h/a"
     { anchors := [{ attrs := [("href", "b.html")] }], base := none }
     {"https://h/b.html"} rfl).2.2.1⟩

/-! ## Character facts -/

theorem char_toNat_ofNat {n : Nat} (h : n.isValidChar) :
    (Char.ofNat n).toNat = n := by
  rw [Char.ofNat, dif_pos h]
  rfl

theorem char_toNat_inj {c d : Char} (h : c.toNat = d.toNat) : c = d := by
  have h1 := Char.ofNat_toNat c
  have h2 := Char.ofNat_toNat d
  rw [← h1, ← h2, h]

theorem char_toNat_toLower (c : Char) :
    (Char.toLower c).toNat =
      if 65 ≤ c.toNat ∧ c.toNat ≤ 90 then c.toNat + 32 else c.toNat := by
  rw [Char.toLower]
  by_cases h : 65 ≤ c.toNat ∧ c.toNat ≤ 90
  · rw [if_pos h, if_pos h, char_toNat_ofNat (Or.inl (by omega))]
  · rw [if_neg h, if_neg h]

theorem isAlpha_toNat {c : Char} (h : c.isAlpha = true) :
    (65 ≤ c.toNat ∧ c.toNat ≤ 90) ∨ (97 ≤ c.toNat ∧ c.toNat ≤ 122) := by
  rw [Char.isAlpha, Bool.or_eq_true] at h
  rcases h with h | h
  · rw [Char.isUpper, Bool.and_eq_true, decide_eq_true_eq,
      decide_eq_true_eq] at h
    exact Or.inl ⟨h.1, h.2⟩
  · rw [Char.isLower, Bool.and_eq_true, decide_eq_true_eq,
      decide_eq_true_eq] at h
    exact Or.inr ⟨h.1, h.2⟩

theorem isAlpha_of_toNat {c : Char}
    (h : (65 ≤ c.toNat ∧ c.toNat ≤ 90) ∨ (97 ≤ c.toNat ∧ c.toNat ≤ 122)) :
    c.isAlpha = true := by
  rw [Char.isAlpha, Bool.or_eq_true]
  rcases h with h | h
  · refine Or.inl ?_
    rw [Char.isUpper, Bool.and_eq_true, decide_eq_true_eq, decide_eq_true_eq]
    exact ⟨h.1, h.2⟩
  · refine Or.inr ?_
    rw [Char.isLower, Bool.and_eq_true, decide_eq_true_eq, decide_eq_true_eq]
    exact ⟨h.1, h.2⟩

theorem isDigit_toNat {c : Char} (h : c.isDigit = true) :
    48 ≤ c.toNat ∧ c.toNat ≤ 57 := by
  rw [Char.isDigit, Bool.and_eq_true, decide_eq_true_eq,
    decide_eq_true_eq] at h
  exact ⟨h.1, h.2⟩

theorem isDigit_of_toNat {c : Char} (h : 48 ≤ c.toNat ∧ c.toNat ≤ 57) :
    c.isDigit = true := by
  rw [Char.isDigit, Bool.and_eq_true, decide_eq_true_eq, decide_eq_true_eq]
  exact ⟨h.1, h.2⟩

theorem schemeChar_toNat {c : Char} (h : schemeChar c = true) :
    (65 ≤ c.toNat ∧ c.toNat ≤ 90) ∨ (97 ≤ c.toNat ∧ c.toNat ≤ 122)
    ∨ (48 ≤ c.toNat ∧ c.toNat ≤ 57)
    ∨ c.toNat = 43 ∨ c.toNat = 45 ∨ c.toNat = 46 := by
  rw [schemeChar] at h
  simp only [Bool.or_eq_true, beq_iff_eq] at h
  rcases h with (((ha | hd) | hp) | hm) | he
  · rcases isAlpha_toNat ha with h | h
    · exact Or.inl h
    · exact Or.inr (Or.inl h)
  · exact Or.inr (Or.inr (Or.inl (isDigit_toNat hd)))
  · subst hp; exact Or.inr (Or.inr (Or.inr (Or.inl rfl)))
  · subst hm; exact Or.inr (Or.inr (Or.inr (Or.inr (Or.inl rfl))))
  · subst he; exact Or.inr (Or.inr (Or.inr (Or.inr (Or.inr rfl))))

theorem schemeChar_of_toNat {c : Char}
    (h : (65 ≤ c.toNat ∧ c.toNat ≤ 90) ∨ (97 ≤ c.toNat ∧ c.toNat ≤ 122)
      ∨ (48 ≤ c.toNat ∧ c.toNat ≤ 57)
      ∨ c.toNat = 43 ∨ c.toNat = 45 ∨ c.toNat = 46) :
    schemeChar c = true := by
  rw [schemeChar]
  simp only [Bool.or_eq_true, beq_iff_eq]
  rcases h with h | h | h | h | h | h
  · exact Or.inl (Or.inl (Or.inl (Or.inl (isAlpha_of_toNat (Or.inl h)))))
  · exact Or.inl (Or.inl (Or.inl (Or.inl (isAlpha_of_toNat (Or.inr h)))))
  · exact Or.inl (Or.inl (Or.inl (Or.inr (isDigit_of_toNat h))))
  · exact Or.inl (Or.inl (Or.inr (char_toNat_inj (by rw [h]; rfl))))
  · exact Or.inl (Or.inr (char_toNat_inj (by rw [h]; rfl)))
  · exact Or.inr (char_toNat_inj (by rw [h]; rfl))

theorem schemeChar_toLower {c : Char} (h : schemeChar c = true) :
    schemeChar (Char.toLower c) = true := by
  apply schemeChar_of_toNat
  rw [char_toNat_toLower]
  by_cases hc : 65 ≤ c.toNat ∧ c.toNat ≤ 90
  · rw [if_pos hc]; omega
  · rw [if_neg hc]
    rcases schemeChar_toNat h with h1 | h1 | h1 | h1 | h1 | h1 <;> omega

theorem isAlpha_toLower {c : Char} (h : c.isAlpha = true) :
    (Char.toLower c).isAlpha = true := by
  apply isAlpha_of_toNat
  rw [char_toNat_toLower]
  rcases isAlpha_toNat h with h1 | h1
  · rw [if_pos h1]; omega
  · rw [if_neg (by omega)]; omega

theorem tabCrLf_toNat {c : Char} (h : tabCrLf c = true) :
    c.toNat = 9 ∨ c.toNat = 13 ∨ c.toNat = 10 := by
  rw [tabCrLf] at h
  simp only [Bool.or_eq_true, beq_iff_eq] at h
  rcases h with (h | h) | h <;> subst h
  · exact Or.inl rfl
  · exact Or.inr (Or.inl rfl)
  · exact Or.inr (Or.inr rfl)

theorem schemeChar_not_tabCrLf {c : Char} (h : schemeChar c = true) :
    tabCrLf c = false := by
  cases ht : tabCrLf c with
  | false => rfl
  | true =>
    exfalso
    rcases tabCrLf_toNat ht with hn | hn | hn <;>
      rcases schemeChar_toNat h with h1 | h1 | h1 | h1 | h1 | h1 <;> omega

theorem tabCrLf_toLower {c : Char} (h : tabCrLf c = false) :
    tabCrLf (Char.toLower c) = false := by
  cases hl : tabCrLf (Char.toLower c) with
  | false => rfl
  | true =>
    exfalso
    have hn := tabCrLf_toNat hl
    rw [char_toNat_toLower] at hn
    by_cases hc : 65 ≤ c.toNat ∧ c.toNat ≤ 90
    · rw [if_pos hc] at hn; omega
    · rw [if_neg hc] at hn
      have : tabCrLf c = true := by
        rw [tabCrLf]
        simp only [Bool.or_eq_true, beq_iff_eq]
        rcases hn with hn | hn | hn
        · exact Or.inl (Or.inl (char_toNat_inj (by rw [hn]; rfl)))
        · exact Or.inl (Or.inr (char_toNat_inj (by rw [hn]; rfl)))
        · exact Or.inr (char_toNat_inj (by rw [hn]; rfl))
      rw [this] at h
      cases h

/-! ## Splitting lemmas -/

theorem splitFirst_sep_not_mem_fst (sep : Char) (l : List Char) :
    sep ∉ (splitFirst sep l).1 := by
  induction l with
  | nil => simp [splitFirst]
  | cons c cs ih =>
    by_cases h : c = sep
    · simp [splitFirst, h]
    · simp only [splitFirst, if_neg h, List.mem_cons]
      rintro (rfl | hmem)
      · exact h rfl
      · exact ih hmem

theorem splitFirst_fst_subset {sep c : Char} {l : List Char}
    (h : c ∈ (splitFirst sep l).1) : c ∈ l := by
  induction l with
  | nil => simp [splitFirst] at h
  | cons a cs ih =>
    by_cases ha : a = sep
    · simp [splitFirst, ha] at h
    · rw [splitFirst, if_neg ha] at h
      rcases List.mem_cons.1 h with rfl | h
      · exact List.mem_cons_self c cs
      · exact List.mem_cons_of_mem a (ih h)

theorem splitFirst_snd_subset {sep c : Char} {l r : List Char}
    (h : (splitFirst sep l).2 = some r) (hc : c ∈ r) : c ∈ l := by
  induction l with
  | nil => simp [splitFirst] at h
  | cons a cs ih =>
    by_cases ha : a = sep
    · rw [splitFirst, if_pos ha] at h
      injection h with h
      subst h
      exact List.mem_cons_of_mem a hc
    · rw [splitFirst, if_neg ha] at h
      exact List.mem_cons_of_mem a (ih h)

theorem splitFirst_snd_none_iff (sep : Char) (l : List Char) :
    (splitFirst sep l).2 = none ↔ sep ∉ l := by
  induction l with
  | nil => simp [splitFirst]
  | cons a cs ih =>
    by_cases ha : a = sep
    · simp [splitFirst, ha]
    · rw [splitFirst, if_neg ha]
      simp only [List.mem_cons]
      rw [ih]
      constructor
      · rintro h (rfl | hmem)
        · exact ha rfl
        · exact h hmem
      · intro h hmem
        exact h (Or.inr hmem)

theorem splitFirst_fst_of_none {sep : Char} {l : List Char}
    (h : (splitFirst sep l).2 = none) : (splitFirst sep l).1 = l := by
  induction l with
  | nil => rfl
  | cons a cs ih =>
    by_cases ha : a = sep
    · rw [splitFirst, if_pos ha] at h
      cases h
    · simp only [splitFirst, if_neg ha] at h ⊢
      rw [ih h]

theorem splitFirst_reassemble {sep : Char} {l r : List Char}
    (h : (splitFirst sep l).2 = some r) :
    l = (splitFirst sep l).1 ++ sep :: r := by
  induction l with
  | nil => simp [splitFirst] at h
  | cons a cs ih =>
    by_cases ha : a = sep
    · rw [splitFirst, if_pos ha] at h ⊢
      injection h with h
      subst h
      subst ha
      rfl
    · rw [splitFirst, if_neg ha] at h ⊢
      have := ih h
      calc a :: cs = a :: ((splitFirst sep cs).1 ++ sep :: r) := by rw [← this]
        _ = _ := rfl

theorem splitFirst_append_left {sep : Char} {l r : List Char}
    (h : (splitFirst sep l).2 = some r) (t : List Char) :
    splitFirst sep (l ++ t) = ((splitFirst sep l).1, some (r ++ t)) := by
  induction l with
  | nil => simp [splitFirst] at h
  | cons a cs ih =>
    by_cases ha : a = sep
    · rw [splitFirst, if_pos ha] at h
      injection h with h
      subst h
      rw [List.cons_append, splitFirst, if_pos ha, splitFirst, if_pos ha]
    · rw [splitFirst, if_neg ha] at h
      rw [List.cons_append, splitFirst, if_neg ha, splitFirst, if_neg ha,
        ih h]

theorem splitFirst_append_none {sep : Char} {l : List Char}
    (h : (splitFirst sep l).2 = none) (t : List Char) :
    splitFirst sep (l ++ t) =
      (l ++ (splitFirst sep t).1, (splitFirst sep t).2) := by
  induction l with
  | nil => simp
  | cons a cs ih =>
    by_cases ha : a = sep
    · rw [splitFirst, if_pos ha] at h
      cases h
    · rw [splitFirst, if_neg ha] at h
      rw [List.cons_append, splitFirst, if_neg ha, ih h]
      rfl

theorem splitFirst_sep_cons (sep : Char) (l t : List Char) (h : sep ∉ l) :
    splitFirst sep (l ++ sep :: t) = (l, some t) := by
  induction l with
  | nil => simp [splitFirst]
  | cons a cs ih =>
    have ha : a ≠ sep := fun hc => h (hc ▸ List.mem_cons_self a cs)
    rw [List.cons_append, splitFirst, if_neg ha,
      ih fun hc => h (List.mem_cons_of_mem a hc)]

theorem splitFirst_fst_prefix (sep : Char) (l : List Char) :
    ∃ t, l = (splitFirst sep l).1 ++ t := by
  cases h : (splitFirst sep l).2 with
  | none => exact ⟨[], by rw [splitFirst_fst_of_none h, List.append_nil]⟩
  | some r => exact ⟨sep :: r, splitFirst_reassemble h⟩

/-! ## Structure of `splitNetloc`, `splitRest` and `urlsplitCore` -/

theorem splitNetloc_eq (rest : List Char) :
    (∃ r, rest = '/' :: '/' :: r
      ∧ splitNetloc rest = (r.takeWhile (fun c => !netlocStop c),
                            r.dropWhile (fun c => !netlocStop c)))
    ∨ (splitNetloc rest = ([], rest) ∧ ∀ r, rest ≠ '/' :: '/' :: r) := by
  by_cases h : rest.take 2 = ['/', '/']
  · left
    match rest, h with
    | a :: b :: r, h =>
      simp only [List.take] at h
      injection h with h1 h
      injection h with h2 _
      subst h1
      subst h2
      exact ⟨r, rfl, by
        rw [splitNetloc,
          if_pos (show List.take 2 ('/' :: '/' :: r) = ['/', '/'] from rfl)]
        rfl⟩
  · right
    refine ⟨by rw [splitNetloc, if_neg h], ?_⟩
    intro r hr
    subst hr
    exact h rfl

theorem dropWhile_head_stop {p : Char → Bool} {l r : List Char} {c : Char}
    (h : l.dropWhile (fun x => !p x) = c :: r) : p c = true := by
  induction l with
  | nil => cases h
  | cons a cs ih =>
    rw [List.dropWhile_cons] at h
    by_cases ha : p a
    · rw [if_neg (by simp [ha])] at h
      injection h with h1 _
      subst h1
      exact ha
    · rw [if_pos (by simp [ha])] at h
      exact ih h

theorem splitRest_netloc (sch rest : List Char) :
    (splitRest sch rest).netloc = (splitNetloc rest).1 := rfl

theorem splitRest_netloc_stop (sch rest : List Char) :
    ∀ c ∈ (splitRest sch rest).netloc, netlocStop c = false := by
  intro c hc
  rw [splitRest_netloc] at hc
  rcases splitNetloc_eq rest with ⟨r, _, heq⟩ | ⟨heq, _⟩
  · rw [heq] at hc
    simpa using List.mem_takeWhile_imp hc
  · rw [heq] at hc
    cases hc

theorem splitRest_path_no_hash (sch rest : List Char) :
    '#' ∉ (splitRest sch rest).path := by
  intro h
  exact splitFirst_sep_not_mem_fst '#' (splitNetloc rest).2
    (splitFirst_fst_subset h)

theorem splitRest_path_no_query_mark (sch rest : List Char) :
    '?' ∉ (splitRest sch rest).path := by
  intro h
  exact splitFirst_sep_not_mem_fst '?' (splitFirst '#' (splitNetloc rest).2).1 h

theorem splitRest_query_no_hash (sch rest : List Char) :
    '#' ∉ (splitRest sch rest).query := by
  intro h
  have hq : (splitRest sch rest).query =
      match (splitFirst '?' (splitFirst '#' (splitNetloc rest).2).1).2 with
      | some q => q
      | none => [] := rfl
  rw [hq] at h
  cases hs : (splitFirst '?' (splitFirst '#' (splitNetloc rest).2).1).2 with
  | none => rw [hs] at h; cases h
  | some q =>
    rw [hs] at h
    exact splitFirst_sep_not_mem_fst '#' (splitNetloc rest).2
      (splitFirst_snd_subset hs h)

theorem splitRest_path_prefix (sch rest : List Char) :
    ∃ t, (splitNetloc rest).2 = (splitRest sch rest).path ++ t := by
  obtain ⟨t1, h1⟩ := splitFirst_fst_prefix '#' (splitNetloc rest).2
  obtain ⟨t2, h2⟩ := splitFirst_fst_prefix '?'
    (splitFirst '#' (splitNetloc rest).2).1
  refine ⟨t2 ++ t1, ?_⟩
  rw [h1, h2, List.append_assoc]
  rfl

theorem splitRest_netloc_path_head (sch rest : List Char)
    (h : (splitRest sch rest).netloc ≠ []) :
    (splitRest sch rest).path = []
    ∨ (splitRest sch rest).path.head? = some '/' := by
  cases hp : (splitRest sch rest).path with
  | nil => exact Or.inl rfl
  | cons c t =>
    right
    rcases splitNetloc_eq rest with ⟨r, _, heq⟩ | ⟨heq, _⟩
    · obtain ⟨tp, htp⟩ := splitRest_path_prefix sch rest
      rw [heq] at htp
      rw [hp] at htp
      have hstop : netlocStop c = true := by
        have : List.dropWhile (fun x => !netlocStop x) r = c :: (t ++ tp) := by
          simpa using htp
        exact dropWhile_head_stop this
      rw [netlocStop] at hstop
      simp only [Bool.or_eq_true, beq_iff_eq] at hstop
      rcases hstop with (hc | hc) | hc
      · rw [hc]
        rfl
      · have hmem : '?' ∈ (splitRest sch rest).path := by
          rw [hp, ← hc]
          exact List.mem_cons_self c t
        exact absurd hmem (splitRest_path_no_query_mark sch rest)
      · have hmem : '#' ∈ (splitRest sch rest).path := by
          rw [hp, ← hc]
          exact List.mem_cons_self c t
        exact absurd hmem (splitRest_path_no_hash sch rest)
    · rw [splitRest_netloc, heq] at h
      exact absurd rfl h

theorem splitScheme_some {s sch rest : List Char}
    (h : splitScheme s = some (sch, rest)) :
    ∃ pre c cs, pre = c :: cs ∧ c.isAlpha = true
      ∧ (∀ x ∈ pre, schemeChar x = true)
      ∧ sch = pre.map Char.toLower
      ∧ s = pre ++ ':' :: rest := by
  rw [splitScheme] at h
  rcases hsp : splitFirst ':' s with ⟨pre, osnd⟩
  rw [hsp] at h
  cases osnd with
  | none => cases h
  | some r =>
    cases pre with
    | nil => cases h
    | cons c cs =>
      have h' : (if (c.isAlpha && (c :: cs).all schemeChar) = true
          then some ((c :: cs).map Char.toLower, r) else none)
          = some (sch, rest) := h
      by_cases hcond : (c.isAlpha && (c :: cs).all schemeChar) = true
      · rw [if_pos hcond] at h'
        injection h' with h'
        injection h' with h1 h2
        rw [Bool.and_eq_true] at hcond
        refine ⟨c :: cs, c, cs, rfl, hcond.1, ?_, h1.symm, ?_⟩
        · intro x hx
          exact List.all_eq_true.1 hcond.2 x hx
        · have hre := splitFirst_reassemble
            (show (splitFirst ':' s).2 = some r by rw [hsp])
          rw [hsp] at hre
          rw [hre, h2]
      · rw [if_neg hcond] at h'
        cases h'

theorem splitScheme_good {s sch rest : List Char}
    (h : splitScheme s = some (sch, rest)) :
    (∃ c cs, sch = c :: cs ∧ c.isAlpha = true)
    ∧ (∀ c ∈ sch, schemeChar c = true) := by
  obtain ⟨pre, c, cs, hpre, ha, hall, hsch, _⟩ := splitScheme_some h
  subst hpre
  subst hsch
  refine ⟨⟨Char.toLower c, cs.map Char.toLower, rfl,
    isAlpha_toLower ha⟩, ?_⟩
  intro x hx
  obtain ⟨y, hy, rfl⟩ := List.mem_map.1 hx
  exact schemeChar_toLower (hall y hy)

theorem splitScheme_build {rest : List Char} (pre : List Char) {c : Char}
    {cs : List Char} (hpre : pre = c :: cs) (ha : c.isAlpha = true)
    (hall : ∀ x ∈ pre, schemeChar x = true) :
    splitScheme (pre ++ ':' :: rest) = some (pre.map Char.toLower, rest) := by
  have hnc : ':' ∉ pre := by
    intro hc
    have := hall ':' hc
    simp [schemeChar, Char.isAlpha, Char.isUpper, Char.isLower,
      Char.isDigit] at this
  rw [splitScheme, splitFirst_sep_cons ':' pre rest hnc]
  subst hpre
  show (if (c.isAlpha && (c :: cs).all schemeChar) = true
      then some ((c :: cs).map Char.toLower, rest) else none)
    = some ((c :: cs).map Char.toLower, rest)
  rw [if_pos]
  rw [Bool.and_eq_true]
  exact ⟨ha, List.all_eq_true.2 hall⟩

theorem urlsplitCore_eq (d s : List Char) :
    (∃ sch rest, splitScheme (stripCtl s) = some (sch, rest)
      ∧ urlsplitCore d s = splitRest sch rest)
    ∨ (splitScheme (stripCtl s) = none
      ∧ urlsplitCore d s = splitRest d (stripCtl s)) := by
  cases h : splitScheme (stripCtl s) with
  | some pr =>
    obtain ⟨sch, rest⟩ := pr
    refine Or.inl ⟨sch, rest, rfl, ?_⟩
    rw [urlsplitCore, h]
  | none =>
    refine Or.inr ⟨rfl, ?_⟩
    rw [urlsplitCore, h]

/-! ## No `#` survives defragmentation -/

theorem mem_if_append_right {c x : Char} {l t : List Char} {P : Prop}
    [Decidable P] (h : c ∈ if P then l ++ x :: t else l) :
    c ∈ l ∨ ((c = x ∨ c ∈ t) ∧ P) := by
  by_cases hp : P
  · rw [if_pos hp] at h
    rcases List.mem_append.1 h with h | h
    · exact Or.inl h
    · rcases List.mem_cons.1 h with h | h
      · exact Or.inr ⟨Or.inl h, hp⟩
      · exact Or.inr ⟨Or.inr h, hp⟩
  · rw [if_neg hp] at h
    exact Or.inl h

theorem mem_if_prepend {c x : Char} {l t : List Char} {P : Prop}
    [Decidable P] (h : c ∈ if P then t ++ x :: l else l) :
    c ∈ l ∨ c = x ∨ c ∈ t := by
  by_cases hp : P
  · rw [if_pos hp] at h
    rcases List.mem_append.1 h with h | h
    · exact Or.inr (Or.inr h)
    · rcases List.mem_cons.1 h with h | h
      · exact Or.inr (Or.inl h)
      · exact Or.inl h
  · rw [if_neg hp] at h
    exact Or.inl h

theorem mem_netloc_step {c : Char} {netloc path : List Char} {P Q : Prop}
    [Decidable P] [Decidable Q]
    (h : c ∈ if P then
        '/' :: '/' :: (netloc ++ (if Q then '/' :: path else path))
      else path) :
    c ∈ netloc ∨ c ∈ path ∨ c = '/' := by
  by_cases hp : P
  · rw [if_pos hp] at h
    rcases List.mem_cons.1 h with h | h
    · exact Or.inr (Or.inr h)
    · rcases List.mem_cons.1 h with h | h
      · exact Or.inr (Or.inr h)
      · rcases List.mem_append.1 h with h | h
        · exact Or.inl h
        · by_cases hq : Q
          · rw [if_pos hq] at h
            rcases List.mem_cons.1 h with h | h
            · exact Or.inr (Or.inr h)
            · exact Or.inr (Or.inl h)
          · rw [if_neg hq] at h
            exact Or.inr (Or.inl h)
  · rw [if_neg hp] at h
    exact Or.inr (Or.inl h)

theorem mem_urlunsplit {c : Char} {r : SplitResult} (h : c ∈ urlunsplit r) :
    c ∈ r.scheme ∨ c ∈ r.netloc ∨ c ∈ r.path
      ∨ ((c = '?' ∨ c ∈ r.query) ∧ r.query ≠ [])
      ∨ ((c = '#' ∨ c ∈ r.fragment) ∧ r.fragment ≠ [])
      ∨ c = '/' ∨ c = ':' := by
  simp only [urlunsplit] at h
  have h4 := mem_if_append_right h
  rcases h4 with h4 | h4
  · have h3 := mem_if_append_right h4
    rcases h3 with h3 | h3
    · have h2 := mem_if_prepend h3
      rcases h2 with h2 | h2 | h2
      · have h1 := mem_netloc_step h2
        tauto
      · tauto
      · tauto
    · tauto
  · tauto

theorem hash_not_mem_urlunsplit {r : SplitResult}
    (hs : ∀ c ∈ r.scheme, schemeChar c = true)
    (hn : ∀ c ∈ r.netloc, netlocStop c = false)
    (hp : '#' ∉ r.path) (hq : '#' ∉ r.query) (hf : r.fragment = []) :
    '#' ∉ urlunsplit r := by
  intro hmem
  rcases mem_urlunsplit hmem with h | h | h | h | h | h | h
  · exact absurd (hs _ h) (by decide)
  · exact absurd (hn _ h) (by decide)
  · exact hp h
  · rcases h.1 with h1 | h1
    · cases h1
    · exact hq h1
  · exact h.2 hf
  · cases h
  · cases h

theorem hash_not_mem_urldefragCore (s : List Char) :
    '#' ∉ urldefragCore s := by
  rw [urldefragCore]
  by_cases h : (splitFirst '#' s).2.isSome
  · rw [if_pos h]
    rcases urlsplitCore_eq [] s with ⟨sch, rest, hsp, heq⟩ | ⟨_, heq⟩ <;>
      rw [heq]
    · exact hash_not_mem_urlunsplit (splitScheme_good hsp).2
        (splitRest_netloc_stop sch rest) (splitRest_path_no_hash sch rest)
        (splitRest_query_no_hash sch rest) rfl
    · exact hash_not_mem_urlunsplit (fun c hc => by cases hc)
        (splitRest_netloc_stop [] (stripCtl s))
        (splitRest_path_no_hash [] (stripCtl s))
        (splitRest_query_no_hash [] (stripCtl s)) rfl
  · rw [if_neg h]
    intro hmem
    rw [Option.not_isSome_iff_eq_none] at h
    exact (splitFirst_snd_none_iff '#' s).1 h hmem

/-! ## Resolution: base selection, absolute passthrough, fragment stripping -/

theorem urlsplitCore_scheme_ne (d s : List Char)
    (h : (urlsplitCore [] s).scheme ≠ []) :
    urlsplitCore d s = urlsplitCore [] s := by
  rcases urlsplitCore_eq [] s with ⟨sch, rest, hsp, heq⟩ | ⟨hsp, heq⟩
  · rcases urlsplitCore_eq d s with ⟨sch', rest', hsp', heq'⟩ | ⟨hsp', heq'⟩
    · rw [hsp] at hsp'
      injection hsp' with hp
      injection hp with h1 h2
      rw [heq, heq', h1, h2]
    · rw [hsp] at hsp'
      cases hsp'
  · exfalso
    apply h
    rw [heq]
    rfl

theorem urldefragCore_no_hash {s : List Char} (h : '#' ∉ s) :
    urldefragCore s = s := by
  rw [urldefragCore, if_neg]
  rw [(splitFirst_snd_none_iff '#' s).2 h]
  simp

/-- A canonical absolute fragment-free URL string: its parse carries scheme
`http` or `https` and a nonempty host, it contains no `#`, and
re-assembling its parse returns it verbatim. -/
def canonicalAbs (href : String) : Prop :=
  ((urlparse href).scheme = "http".data
    ∨ (urlparse href).scheme = "https".data)
  ∧ (urlparse href).netloc ≠ []
  ∧ '#' ∉ href.data
  ∧ urlunsplit (urlparse href) = href.data

instance (href : String) : Decidable (canonicalAbs href) := by
  rw [canonicalAbs]
  infer_instance

theorem urljoinCore_canonicalAbs (base : List Char) (href : String)
    (h : canonicalAbs href) : urljoinCore base href.data = href.data := by
  obtain ⟨hsch, hnet, _, hround⟩ := h
  have hschne : (urlsplitCore [] href.data).scheme ≠ [] := by
    rcases hsch with h1 | h1 <;> rw [urlparse] at h1 <;> rw [h1] <;> decide
  rw [urljoinCore]
  by_cases hb : base = []
  · rw [if_pos hb]
  · rw [if_neg hb]
    have hurl : href.data ≠ [] := by
      intro h0
      rw [urlparse, h0] at hsch
      rcases hsch with h1 | h1 <;> exact absurd h1 (by decide)
    rw [if_neg hurl]
    have hu : urlsplitCore (urlsplitCore [] base).scheme href.data
        = urlparse href := urlsplitCore_scheme_ne _ _ hschne
    by_cases hbs : (urlparse href).scheme = (urlsplitCore [] base).scheme
    · rw [if_neg, if_pos]
      · rw [hu, hround]
      · rw [hu]
        refine ⟨?_, hnet⟩
        rcases hsch with h1 | h1 <;> rw [h1] <;> decide
      · rw [hu]
        push_neg
        refine ⟨hbs, ?_⟩
        rcases hsch with h1 | h1 <;> rw [h1] <;> decide
    · rw [if_pos]
      rw [hu]
      exact Or.inl hbs

theorem resolve_link_url_some {page_url link_url : String} {soup : Doc}
    {r : String} (h : resolve_link_url page_url soup link_url = some r) :
    ∃ B, r = urldefrag (urljoin B link_url) := by
  rw [resolve_link_url] at h
  cases hb : soup.base with
  | none =>
    rw [hb] at h
    injection h with h
    exact ⟨page_url, h.symm⟩
  | some bt =>
    rw [hb] at h
    have h' : (match bt.attr? "href" with
      | some base_url => some (urldefrag (urljoin base_url link_url))
      | none => none) = some r := h
    cases ha : bt.attr? "href" with
    | none => rw [ha] at h'; cases h'
    | some b =>
      rw [ha] at h'
      injection h' with h'
      exact ⟨b, h'.symm⟩

/-- **C6.** `resolve_link_url` joins the href against the `<base href>`
when a base element is present and against `page_url` otherwise; an
already-absolute fragment-free href passes through `urljoin` unchanged
under any base (hence resolution is idempotent on such hrefs); the
returned URL never contains a `#`; and the concrete relative-path and
fragment-stripping examples evaluate as stated. -/
theorem C6_resolution_semantics (page_url : String) (soup : Doc)
    (link_url : String) :
    (soup.base = none →
      resolve_link_url page_url soup link_url
        = some (urldefrag (urljoin page_url link_url)))
    ∧ (∀ bt b, soup.base = some bt → bt.attr? "href" = some b →
      resolve_link_url page_url soup link_url
        = some (urldefrag (urljoin b link_url)))
    ∧ (canonicalAbs link_url →
      (∀ base : String, urljoin base link_url = link_url)
      ∧ (∀ r, resolve_link_url page_url soup link_url = some r →
          r = link_url))
    ∧ (∀ r, resolve_link_url page_url soup link_url = some r →
        '#' ∉ r.data)
    ∧ resolve_link_url "http://h/baz/boz.html" { anchors := [], base := none }
        "foo/bar.html" = some "http://h/baz/foo/bar.html"
    ∧ resolve_link_url "http://h/baz/boz.html" { anchors := [], base := none }
        "http://h/foo/bar.html#tab=5" = some "http://h/foo/bar.html" := by
  refine ⟨?_, ?_, ?_, ?_, rfl, rfl⟩
  · intro h
    rw [resolve_link_url, h]
  · intro bt b h1 h2
    rw [resolve_link_url, h1]
    show (match bt.attr? "href" with
      | some base_url => some (urldefrag (urljoin base_url link_url))
      | none => none) = some (urldefrag (urljoin b link_url))
    rw [h2]
  · intro hc
    have hpass : ∀ base : String, urljoin base link_url = link_url := by
      intro base
      rw [urljoin, urljoinCore_canonicalAbs base.data link_url hc]
    refine ⟨hpass, ?_⟩
    intro r hr
    obtain ⟨B, hB⟩ := resolve_link_url_some hr
    rw [hB, hpass B, urldefrag, urldefragCore_no_hash hc.2.2.1]
  · intro r hr
    obtain ⟨B, hB⟩ := resolve_link_url_some hr
    rw [hB]
    exact hash_not_mem_urldefragCore _

/-- Witness for C6 at a canonical absolute href. -/
theorem C6_resolution_semantics_witness :
    (({ anchors := [], base := none } : Doc).base = none
      ∧ resolve_link_url "http://h/baz/boz.html"
          { anchors := [], base := none } "foo/bar.html"
        = some (urldefrag (urljoin "http://h/baz/boz.html" "foo/bar.html")))
    ∧ (canonicalAbs "http://h/foo/bar.html"
      ∧ urljoin "http://h/baz/boz.html" "http://h/foo/bar.html"
          = "http://h/foo/bar.html")
    ∧ resolve_link_url "http://h/baz/boz.html" { anchors := [], base := none }
        "http://h/foo/bar.html#tab=5" = some "http://h/foo/bar.html" :=
  ⟨⟨rfl,
    (C6_resolution_semantics "http://h/baz/boz.html"
      { anchors := [], base := none } "foo/bar.html").1 rfl⟩,
   ⟨by decide,
    ((C6_resolution_semantics "http://h/baz/boz.html"
      { anchors := [], base := none } "http://h/foo/bar.html").2.2.1
      (by decide)).1 "http://h/baz/boz.html"⟩,
   (C6_resolution_semantics "http://h/baz/boz.html"
     { anchors := [], base := none } "x").2.2.2.2.2⟩

/-! ## Netloc preservation through unsplit/reparse -/

theorem stripCtl_clean {l : List Char} (h : ∀ c ∈ l, tabCrLf c = false) :
    stripCtl l = l := by
  rw [stripCtl, List.filter_eq_self]
  intro a ha
  rw [h a ha]
  rfl

theorem stripCtl_append (a b : List Char) :
    stripCtl (a ++ b) = stripCtl a ++ stripCtl b := by
  simp [stripCtl]

theorem mem_stripCtl_clean {c : Char} {l : List Char} (h : c ∈ stripCtl l) :
    tabCrLf c = false := by
  rw [stripCtl] at h
  have := List.of_mem_filter h
  simpa using this

theorem takeWhile_append_stop {p : Char → Bool} {a b : List Char}
    (ha : ∀ c ∈ a, p c = true)
    (hb : b = [] ∨ ∃ c t, b = c :: t ∧ p c = false) :
    (a ++ b).takeWhile p = a := by
  induction a with
  | nil =>
    rcases hb with rfl | ⟨c, t, rfl, hc⟩
    · rfl
    · rw [List.nil_append, List.takeWhile_cons, hc]
      rfl
  | cons x xs ih =>
    rw [List.cons_append, List.takeWhile_cons, ha x (List.mem_cons_self x xs),
      ih fun c hc => ha c (List.mem_cons_of_mem x hc)]
    rfl

theorem splitFirst_cons_ne {sep c : Char} (t : List Char) (hc : ¬ c = sep) :
    splitFirst sep (c :: t)
      = (c :: (splitFirst sep t).1, (splitFirst sep t).2) := by
  rw [splitFirst, if_neg hc]

theorem splitScheme_none_head {c : Char} {t : List Char}
    (h : c.isAlpha = false) : splitScheme (c :: t) = none := by
  by_cases hc : c = ':'
  · subst hc
    rw [splitScheme, splitFirst, if_pos rfl]
  · rw [splitScheme, splitFirst_cons_ne t hc]
    cases hf : (splitFirst ':' t).2 with
    | none => rfl
    | some r =>
      show (if (c.isAlpha && (c :: (splitFirst ':' t).1).all schemeChar)
            = true
          then some ((c :: (splitFirst ':' t).1).map Char.toLower, r)
          else none) = none
      rw [if_neg]
      rw [Bool.and_eq_true]
      rintro ⟨h1, _⟩
      rw [h] at h1
      cases h1

theorem splitScheme_none_append {a t : List Char}
    (h : splitScheme (a ++ t) = none) : splitScheme a = none := by
  induction a with
  | nil => rfl
  | cons c cs ih =>
    by_cases hc : c = ':'
    · subst hc
      rw [splitScheme, splitFirst, if_pos rfl]
    · by_cases hA : c.isAlpha = true
      · rw [List.cons_append, splitScheme, splitFirst_cons_ne (cs ++ t) hc]
          at h
        rw [splitScheme, splitFirst_cons_ne cs hc]
        cases hcs : (splitFirst ':' cs).2 with
        | none => rfl
        | some r' =>
          have hfl := splitFirst_append_left hcs t
          rw [hfl] at h
          show (if (c.isAlpha && (c :: (splitFirst ':' cs).1).all schemeChar)
                = true
              then some ((c :: (splitFirst ':' cs).1).map Char.toLower, r')
              else none) = none
          have h' : (if (c.isAlpha
                && (c :: (splitFirst ':' cs).1).all schemeChar) = true
              then some ((c :: (splitFirst ':' cs).1).map Char.toLower,
                r' ++ t)
              else none) = none := h
          by_cases hcond : (c.isAlpha
              && (c :: (splitFirst ':' cs).1).all schemeChar) = true
          · rw [if_pos hcond] at h'
            cases h'
          · rw [if_neg hcond]
      · exact splitScheme_none_head (by
          cases hA2 : c.isAlpha
          · rfl
          · exact absurd hA2 hA)

theorem stripCtl_cons_clean {c : Char} (h : tabCrLf c = false)
    (l : List Char) : stripCtl (c :: l) = c :: stripCtl l := by
  rw [stripCtl, List.filter_cons, if_pos (by rw [h]; rfl)]
  rfl

theorem splitRest_netloc_subset {c : Char} {sch rest : List Char}
    (h : c ∈ (splitRest sch rest).netloc) : c ∈ rest := by
  rw [splitRest_netloc] at h
  rcases splitNetloc_eq rest with ⟨r, hr, heq⟩ | ⟨heq, _⟩
  · rw [heq] at h
    have := (List.takeWhile_sublist (l := r)
      (fun c => !netlocStop c)).subset h
    rw [hr]
    exact List.mem_cons_of_mem _ (List.mem_cons_of_mem _ this)
  · rw [heq] at h
    cases h

theorem urlsplitCore_netloc_clean (d s : List Char) :
    ∀ c ∈ (urlsplitCore d s).netloc, tabCrLf c = false := by
  intro c hc
  rcases urlsplitCore_eq d s with ⟨sch, rest, hsp, heq⟩ | ⟨hsp, heq⟩
  · rw [heq] at hc
    obtain ⟨pre, c0, cs0, _, _, _, _, hre⟩ := splitScheme_some hsp
    have hmem : c ∈ stripCtl s := by
      rw [hre]
      exact List.mem_append.2 (Or.inr
        (List.mem_cons_of_mem ':' (splitRest_netloc_subset hc)))
    exact mem_stripCtl_clean hmem
  · rw [heq] at hc
    exact mem_stripCtl_clean (splitRest_netloc_subset hc)

theorem splitRest_path_eq (sch rest : List Char) :
    (splitRest sch rest).path
      = (splitFirst '?' (splitFirst '#' (splitNetloc rest).2).1).1 := rfl

theorem urlsplitCore_d_netloc (d₁ d₂ s : List Char) :
    (urlsplitCore d₁ s).netloc = (urlsplitCore d₂ s).netloc := by
  rcases urlsplitCore_eq d₁ s with ⟨sch, rest, hsp, heq⟩ | ⟨hsp, heq⟩ <;>
    rcases urlsplitCore_eq d₂ s with ⟨sch', rest', hsp', heq'⟩ | ⟨hsp', heq'⟩
  · rw [hsp] at hsp'
    injection hsp' with hp
    injection hp with h1 h2
    rw [heq, heq', h1, h2]
  · rw [hsp] at hsp'
    cases hsp'
  · rw [hsp'] at hsp
    cases hsp
  · rw [heq, heq']
    rw [splitRest_netloc, splitRest_netloc]

theorem urlsplitCore_scheme_shape (d s : List Char)
    (hd : d = [] ∨ ((∃ c cs, d = c :: cs ∧ c.isAlpha = true)
        ∧ ∀ c ∈ d, schemeChar c = true)) :
    (urlsplitCore d s).scheme = []
    ∨ ((∃ c cs, (urlsplitCore d s).scheme = c :: cs ∧ c.isAlpha = true)
        ∧ ∀ c ∈ (urlsplitCore d s).scheme, schemeChar c = true) := by
  rcases urlsplitCore_eq d s with ⟨sch, rest, hsp, heq⟩ | ⟨_, heq⟩
  · rw [heq]
    exact Or.inr ⟨(splitScheme_good hsp).1, (splitScheme_good hsp).2⟩
  · rw [heq]
    exact hd

theorem splitNetloc_slashslash (l : List Char) :
    splitNetloc ('/' :: '/' :: l)
      = (l.takeWhile (fun c => !netlocStop c),
         l.dropWhile (fun c => !netlocStop c)) := by
  rw [splitNetloc,
    if_pos (show List.take 2 ('/' :: '/' :: l) = ['/', '/'] from rfl)]
  rfl

theorem parse_noscheme_slashslash (d netloc tail : List Char)
    (hstop : ∀ c ∈ netloc, netlocStop c = false)
    (hclean : ∀ c ∈ netloc, tabCrLf c = false)
    (htail : tail = [] ∨ ∃ c t, tail = c :: t ∧ netlocStop c = true
      ∧ tabCrLf c = false) :
    (urlsplitCore d ('/' :: '/' :: (netloc ++ tail))).netloc = netloc := by
  have hstrip : stripCtl ('/' :: '/' :: (netloc ++ tail))
      = '/' :: '/' :: (netloc ++ stripCtl tail) := by
    rw [stripCtl_cons_clean (by decide), stripCtl_cons_clean (by decide),
      stripCtl_append, stripCtl_clean hclean]
  have hsp : splitScheme (stripCtl ('/' :: '/' :: (netloc ++ tail)))
      = none := by
    rw [hstrip]
    exact splitScheme_none_head (by decide)
  rcases urlsplitCore_eq d ('/' :: '/' :: (netloc ++ tail)) with
    ⟨sch, rest, hsp', _⟩ | ⟨_, heq⟩
  · rw [hsp] at hsp'
    cases hsp'
  · rw [heq, hstrip, splitRest_netloc, splitNetloc_slashslash]
    apply takeWhile_append_stop
    · intro c hc
      rw [hstop c hc]
      rfl
    · rcases htail with rfl | ⟨c, t, rfl, hstopc, hcleanc⟩
      · exact Or.inl rfl
      · refine Or.inr ⟨c, stripCtl t, ?_, ?_⟩
        · rw [stripCtl_cons_clean hcleanc]
        · rw [hstopc]
          rfl

theorem parse_scheme_slashslash (d sch netloc tail : List Char) {c0 : Char}
    {cs0 : List Char} (hsch : sch = c0 :: cs0) (halpha : c0.isAlpha = true)
    (hall : ∀ c ∈ sch, schemeChar c = true)
    (hstop : ∀ c ∈ netloc, netlocStop c = false)
    (hclean : ∀ c ∈ netloc, tabCrLf c = false)
    (htail : tail = [] ∨ ∃ c t, tail = c :: t ∧ netlocStop c = true
      ∧ tabCrLf c = false) :
    (urlsplitCore d (sch ++ ':' :: '/' :: '/' :: (netloc ++ tail))).netloc
      = netloc := by
  have hschclean : ∀ c ∈ sch, tabCrLf c = false :=
    fun c hc => schemeChar_not_tabCrLf (hall c hc)
  have hstrip : stripCtl (sch ++ ':' :: '/' :: '/' :: (netloc ++ tail))
      = sch ++ ':' :: '/' :: '/' :: (netloc ++ stripCtl tail) := by
    rw [stripCtl_append, stripCtl_clean hschclean,
      stripCtl_cons_clean (by decide), stripCtl_cons_clean (by decide),
      stripCtl_cons_clean (by decide), stripCtl_append,
      stripCtl_clean hclean]
  have hsp : splitScheme (stripCtl
      (sch ++ ':' :: '/' :: '/' :: (netloc ++ tail)))
      = some (sch.map Char.toLower,
          '/' :: '/' :: (netloc ++ stripCtl tail)) := by
    rw [hstrip]
    exact splitScheme_build sch hsch halpha hall
  rcases urlsplitCore_eq d (sch ++ ':' :: '/' :: '/' :: (netloc ++ tail))
    with ⟨sch', rest', hsp', heq⟩ | ⟨hsp', _⟩
  · rw [hsp] at hsp'
    injection hsp' with hp
    injection hp with h1 h2
    rw [heq, ← h2, splitRest_netloc, splitNetloc_slashslash]
    apply takeWhile_append_stop
    · intro c hc
      rw [hstop c hc]
      rfl
    · rcases htail with rfl | ⟨c, t, rfl, hstopc, hcleanc⟩
      · exact Or.inl rfl
      · refine Or.inr ⟨c, stripCtl t, ?_, ?_⟩
        · rw [stripCtl_cons_clean hcleanc]
        · rw [hstopc]
          rfl
  · rw [hsp] at hsp'
    cases hsp'

theorem ite_push_append {P : Prop} [Decidable P] (l x : List Char) :
    (if P then l ++ x else l) = l ++ (if P then x else []) := by
  by_cases h : P
  · rw [if_pos h, if_pos h]
  · rw [if_neg h, if_neg h, List.append_nil]

/-- Re-parsing the re-assembly of a split result with a nonempty netloc
recovers exactly that netloc. -/
theorem netloc_split_unsplit (d : List Char) (r : SplitResult)
    (hs : r.scheme = [] ∨ ((∃ c cs, r.scheme = c :: cs ∧ c.isAlpha = true)
        ∧ ∀ c ∈ r.scheme, schemeChar c = true))
    (hn : r.netloc ≠ [])
    (hstop : ∀ c ∈ r.netloc, netlocStop c = false)
    (hclean : ∀ c ∈ r.netloc, tabCrLf c = false) :
    (urlsplitCore d (urlunsplit r)).netloc = r.netloc := by
  have hout : urlunsplit r =
      (if r.scheme ≠ [] then r.scheme ++ [':'] else [])
        ++ '/' :: '/' :: (r.netloc
          ++ ((if r.path ≠ [] ∧ r.path.head? ≠ some '/'
                then '/' :: r.path else r.path)
            ++ ((if r.query ≠ [] then '?' :: r.query else [])
              ++ (if r.fragment ≠ [] then '#' :: r.fragment else [])))) := by
    simp only [urlunsplit]
    rw [if_pos (Or.inl hn)]
    rw [ite_push_append (P := r.fragment ≠ []), ite_push_append
      (P := r.query ≠ [])]
    by_cases hsc : r.scheme ≠ []
    · rw [if_pos hsc, if_pos hsc]
      simp only [List.append_assoc, List.cons_append, List.nil_append,
        List.singleton_append]
    · rw [if_neg hsc, if_neg hsc]
      simp only [List.append_assoc, List.cons_append, List.nil_append]
  set u1 := if r.path ≠ [] ∧ r.path.head? ≠ some '/' then '/' :: r.path
    else r.path with hu1
  set qf := (if r.query ≠ [] then '?' :: r.query else [])
    ++ (if r.fragment ≠ [] then '#' :: r.fragment else []) with hqf
  have htail : (u1 ++ qf) = [] ∨ ∃ c t, u1 ++ qf = c :: t
      ∧ netlocStop c = true ∧ tabCrLf c = false := by
    have hu1shape : u1 = [] ∨ ∃ t, u1 = '/' :: t := by
      rw [hu1]
      by_cases hcond : r.path ≠ [] ∧ r.path.head? ≠ some '/'
      · rw [if_pos hcond]
        exact Or.inr ⟨r.path, rfl⟩
      · rw [if_neg hcond]
        push_neg at hcond
        cases hp : r.path with
        | nil => exact Or.inl rfl
        | cons c t =>
          have : r.path.head? = some '/' := hcond (by rw [hp]; intro h; cases h)
          rw [hp] at this
          injection this with this
          exact Or.inr ⟨t, by rw [this]⟩
    rcases hu1shape with hu0 | ⟨t, hu0⟩
    · rw [hu0, List.nil_append]
      rw [hqf]
      by_cases hq : r.query ≠ []
      · rw [if_pos hq]
        exact Or.inr ⟨'?', _, rfl, by decide, by decide⟩
      · rw [if_neg hq, List.nil_append]
        by_cases hf : r.fragment ≠ []
        · rw [if_pos hf]
          exact Or.inr ⟨'#', _, rfl, by decide, by decide⟩
        · rw [if_neg hf]
          exact Or.inl rfl
    · rw [hu0]
      exact Or.inr ⟨'/', t ++ qf, rfl, by decide, by decide⟩
  rcases hs with hs0 | ⟨⟨c0, cs0, hsch, halpha⟩, hall⟩
  · rw [hout, if_neg (by rw [hs0]; intro h; exact h rfl), List.nil_append]
    exact parse_noscheme_slashslash d r.netloc (u1 ++ qf) hstop hclean htail
  · rw [hout, if_pos (by rw [hsch]; intro h; cases h)]
    have : r.scheme ++ [':'] ++ '/' :: '/' :: (r.netloc ++ (u1 ++ qf))
        = r.scheme ++ ':' :: '/' :: '/' :: (r.netloc ++ (u1 ++ qf)) := by
      simp
    rw [this]
    exact parse_scheme_slashslash d r.scheme r.netloc (u1 ++ qf) hsch halpha
      hall hstop hclean htail

theorem urlsplitCore_netloc_stop (d s : List Char) :
    ∀ c ∈ (urlsplitCore d s).netloc, netlocStop c = false := by
  rcases urlsplitCore_eq d s with ⟨sch, rest, _, heq⟩ | ⟨_, heq⟩ <;>
    rw [heq] <;> exact splitRest_netloc_stop _ _

theorem splitRest_path_subset {c : Char} {sch rest : List Char}
    (h : c ∈ (splitRest sch rest).path) : c ∈ rest := by
  rw [splitRest_path_eq] at h
  have h2 : c ∈ (splitNetloc rest).2 :=
    splitFirst_fst_subset (splitFirst_fst_subset h)
  rcases splitNetloc_eq rest with ⟨r, hr, heq⟩ | ⟨heq, _⟩
  · rw [heq] at h2
    have := (List.dropWhile_sublist (l := r)
      (fun c => !netlocStop c)).subset h2
    rw [hr]
    exact List.mem_cons_of_mem _ (List.mem_cons_of_mem _ this)
  · rw [heq] at h2
    exact h2

theorem splitRest_query_subset {c : Char} {sch rest : List Char}
    (h : c ∈ (splitRest sch rest).query) : c ∈ rest := by
  have hq : (splitRest sch rest).query =
      match (splitFirst '?' (splitFirst '#' (splitNetloc rest).2).1).2 with
      | some q => q
      | none => [] := rfl
  rw [hq] at h
  cases hs : (splitFirst '?' (splitFirst '#' (splitNetloc rest).2).1).2 with
  | none =>
    rw [hs] at h
    cases h
  | some q =>
    rw [hs] at h
    have h2 : c ∈ (splitNetloc rest).2 :=
      splitFirst_fst_subset (splitFirst_snd_subset hs h)
    rcases splitNetloc_eq rest with ⟨r, hr, heq⟩ | ⟨heq, _⟩
    · rw [heq] at h2
      have := (List.dropWhile_sublist (l := r)
        (fun c => !netlocStop c)).subset h2
      rw [hr]
      exact List.mem_cons_of_mem _ (List.mem_cons_of_mem _ this)
    · rw [heq] at h2
      exact h2

theorem urlsplitCore_path_clean (d s : List Char) :
    ∀ c ∈ (urlsplitCore d s).path, tabCrLf c = false := by
  intro c hc
  rcases urlsplitCore_eq d s with ⟨sch, rest, hsp, heq⟩ | ⟨hsp, heq⟩
  · rw [heq] at hc
    obtain ⟨pre, c0, cs0, _, _, _, _, hre⟩ := splitScheme_some hsp
    have hmem : c ∈ stripCtl s := by
      rw [hre]
      exact List.mem_append.2 (Or.inr
        (List.mem_cons_of_mem ':' (splitRest_path_subset hc)))
    exact mem_stripCtl_clean hmem
  · rw [heq] at hc
    exact mem_stripCtl_clean (splitRest_path_subset hc)

theorem urlsplitCore_query_clean (d s : List Char) :
    ∀ c ∈ (urlsplitCore d s).query, tabCrLf c = false := by
  intro c hc
  rcases urlsplitCore_eq d s with ⟨sch, rest, hsp, heq⟩ | ⟨hsp, heq⟩
  · rw [heq] at hc
    obtain ⟨pre, c0, cs0, _, _, _, _, hre⟩ := splitScheme_some hsp
    have hmem : c ∈ stripCtl s := by
      rw [hre]
      exact List.mem_append.2 (Or.inr
        (List.mem_cons_of_mem ':' (splitRest_query_subset hc)))
    exact mem_stripCtl_clean hmem
  · rw [heq] at hc
    exact mem_stripCtl_clean (splitRest_query_subset hc)

theorem urlsplitCore_path_no_hash (d s : List Char) :
    '#' ∉ (urlsplitCore d s).path := by
  rcases urlsplitCore_eq d s with ⟨sch, rest, _, heq⟩ | ⟨_, heq⟩ <;>
    rw [heq] <;> exact splitRest_path_no_hash _ _

theorem urlsplitCore_query_no_hash (d s : List Char) :
    '#' ∉ (urlsplitCore d s).query := by
  rcases urlsplitCore_eq d s with ⟨sch, rest, _, heq⟩ | ⟨_, heq⟩ <;>
    rw [heq] <;> exact splitRest_query_no_hash _ _

theorem take2_slashslash_of_append {u w : List Char}
    (h : (u ++ w).take 2 ≠ (['/', '/'] : List Char)) :
    u.take 2 ≠ (['/', '/'] : List Char) := by
  intro hu
  apply h
  match u, hu with
  | a :: b :: u', hu =>
    simp only [List.take] at hu
    injection hu with h1 hu
    injection hu with h2 _
    subst h1
    subst h2
    rfl

theorem take2_append_qmark {path q' : List Char}
    (hp : path.take 2 ≠ (['/', '/'] : List Char))
    (hq : q' = [] ∨ ∃ t, q' = '?' :: t) :
    (path ++ q').take 2 ≠ (['/', '/'] : List Char) := by
  match path with
  | [] =>
    rcases hq with rfl | ⟨t, rfl⟩
    · intro h
      cases h
    · intro h
      simp only [List.nil_append, List.take] at h
      injection h with h1 _
      cases h1
  | [a] =>
    rcases hq with rfl | ⟨t, rfl⟩
    · intro h
      simp only [List.append_nil, List.take] at h
      cases h
    · intro h
      simp only [List.singleton_append, List.take] at h
      injection h with _ h
      injection h with h2 _
      cases h2
  | a :: b :: p' =>
    intro h
    apply hp
    simp only [List.cons_append, List.take] at h ⊢
    exact h

theorem dropWhile_of_takeWhile_nil {p : Char → Bool} {l : List Char}
    (h : l.takeWhile p = []) : l.dropWhile p = l := by
  cases l with
  | nil => rfl
  | cons c t =>
    rw [List.takeWhile_cons] at h
    by_cases hc : p c = true
    · rw [if_pos hc] at h
      cases h
    · rw [List.dropWhile_cons, if_neg hc]

theorem parse_noscheme_no_netloc (d rest0 : List Char)
    (hclean : ∀ c ∈ rest0, tabCrLf c = false)
    (hsp : splitScheme rest0 = none)
    (hns : rest0.take 2 ≠ (['/', '/'] : List Char)) :
    (urlsplitCore d rest0).netloc = [] := by
  have hstrip : stripCtl rest0 = rest0 := stripCtl_clean hclean
  rcases urlsplitCore_eq d rest0 with ⟨sch, rest, hsp', _⟩ | ⟨_, heq⟩
  · rw [hstrip, hsp] at hsp'
    cases hsp'
  · rw [heq, hstrip, splitRest_netloc, splitNetloc, if_neg hns]

theorem parse_scheme_no_netloc (d sch rest0 : List Char) {c0 : Char}
    {cs0 : List Char} (hsch : sch = c0 :: cs0) (halpha : c0.isAlpha = true)
    (hall : ∀ c ∈ sch, schemeChar c = true)
    (hclean : ∀ c ∈ rest0, tabCrLf c = false)
    (hns : rest0.take 2 ≠ (['/', '/'] : List Char)) :
    (urlsplitCore d (sch ++ ':' :: rest0)).netloc = [] := by
  have hschclean : ∀ c ∈ sch, tabCrLf c = false :=
    fun c hc => schemeChar_not_tabCrLf (hall c hc)
  have hstrip : stripCtl (sch ++ ':' :: rest0) = sch ++ ':' :: rest0 := by
    rw [stripCtl_append, stripCtl_clean hschclean,
      stripCtl_cons_clean (by decide), stripCtl_clean hclean]
  have hsp : splitScheme (stripCtl (sch ++ ':' :: rest0))
      = some (sch.map Char.toLower, rest0) := by
    rw [hstrip]
    exact splitScheme_build sch hsch halpha hall
  rcases urlsplitCore_eq d (sch ++ ':' :: rest0) with
    ⟨sch', rest', hsp', heq⟩ | ⟨hsp', _⟩
  · rw [hsp] at hsp'
    injection hsp' with hp
    injection hp with h1 h2
    rw [heq, ← h2, splitRest_netloc, splitNetloc, if_neg hns]
  · rw [hsp] at hsp'
    cases hsp'

theorem splitRest_decompose (sch rest : List Char) :
    ∃ t, (splitNetloc rest).2
      = ((splitRest sch rest).path
          ++ (if (splitRest sch rest).query ≠ []
              then '?' :: (splitRest sch rest).query else [])) ++ t := by
  have hqdef : (splitRest sch rest).query =
      (match (splitFirst '?' (splitFirst '#' (splitNetloc rest).2).1).2 with
      | some q => q
      | none => ([] : List Char)) := rfl
  have hpdef := splitRest_path_eq sch rest
  have hfr : ∃ u, (splitNetloc rest).2
      = (splitFirst '#' (splitNetloc rest).2).1 ++ u := by
    cases hf : (splitFirst '#' (splitNetloc rest).2).2 with
    | none =>
      exact ⟨[], by rw [List.append_nil, splitFirst_fst_of_none hf]⟩
    | some f => exact ⟨'#' :: f, splitFirst_reassemble hf⟩
  obtain ⟨u, hu⟩ := hfr
  cases hp : (splitFirst '?' (splitFirst '#' (splitNetloc rest).2).1).2 with
  | none =>
    refine ⟨u, ?_⟩
    have hq0 : (splitRest sch rest).query = [] := by rw [hqdef, hp]
    rw [hq0, if_neg (by simp), List.append_nil, hpdef,
      splitFirst_fst_of_none hp]
    exact hu
  | some q =>
    have hq1 : (splitRest sch rest).query = q := by rw [hqdef, hp]
    have hre : (splitFirst '#' (splitNetloc rest).2).1
        = (splitFirst '?' (splitFirst '#' (splitNetloc rest).2).1).1
          ++ '?' :: q := splitFirst_reassemble hp
    have hcong : (splitFirst '#' (splitNetloc rest).2).1 ++ u
        = ((splitFirst '?' (splitFirst '#' (splitNetloc rest).2).1).1
          ++ '?' :: q) ++ u := congrArg (fun l => l ++ u) hre
    by_cases hq : q = []
    · subst hq
      refine ⟨'?' :: u, ?_⟩
      rw [hq1, if_neg (by simp), List.append_nil, hpdef]
      refine (hu.trans hcong).trans ?_
      simp
    · refine ⟨u, ?_⟩
      rw [hq1, if_pos (by simpa using hq), hpdef]
      exact hu.trans hcong

/-- Re-parsing the re-assembly of a split result with an empty netloc and
empty fragment yields an empty netloc again, provided the no-scheme
no-slash-slash case is known not to re-introduce a scheme. -/
theorem parse_unsplit_no_netloc (S P Q : List Char)
    (hs : S = [] ∨ ((∃ c cs, S = c :: cs ∧ c.isAlpha = true)
        ∧ ∀ c ∈ S, schemeChar c = true))
    (hPclean : ∀ c ∈ P, tabCrLf c = false)
    (hQclean : ∀ c ∈ Q, tabCrLf c = false)
    (hsp : S = [] → P.take 2 ≠ (['/', '/'] : List Char) →
      splitScheme (P ++ (if Q ≠ [] then '?' :: Q else [])) = none) :
    (urlsplitCore [] (urlunsplit
      (⟨S, [], P, Q, []⟩ : SplitResult))).netloc = [] := by
  have hq'clean : ∀ c ∈ (if Q ≠ [] then '?' :: Q else []),
      tabCrLf c = false := by
    by_cases hq : Q ≠ []
    · rw [if_pos hq]
      intro c hc
      rcases List.mem_cons.1 hc with rfl | hc
      · decide
      · exact hQclean c hc
    · rw [if_neg hq]
      intro c hc
      cases hc
  have hq'shape : (if Q ≠ [] then '?' :: Q else []) = []
      ∨ ∃ t, (if Q ≠ [] then '?' :: Q else []) = '?' :: t := by
    by_cases hq : Q ≠ []
    · rw [if_pos hq]
      exact Or.inr ⟨Q, rfl⟩
    · rw [if_neg hq]
      exact Or.inl rfl
  by_cases hA : P.take 2 = (['/', '/'] : List Char)
  · -- path already starts with //, so urlunsplit keeps the // intact
    match P, hA, hPclean, hsp with
    | a :: b :: P2, hA, hPclean, hsp =>
      simp only [List.take] at hA
      injection hA with h1 hA
      injection hA with h2 _
      subst h1
      subst h2
      have hout : urlunsplit
          (⟨S, [], '/' :: '/' :: P2, Q, []⟩ : SplitResult)
          = (if S ≠ [] then S ++ [':'] else [])
            ++ '/' :: '/' :: ([] ++ (('/' :: '/' :: P2)
              ++ (if Q ≠ [] then '?' :: Q else []))) := by
        simp only [urlunsplit]
        rw [if_pos (Or.inr ⟨List.cons_ne_nil _ _,
          (rfl : List.take 2 ('/' :: '/' :: P2) = ['/', '/'])⟩)]
        rw [if_neg (show ¬('/' :: '/' :: P2 ≠ []
          ∧ ('/' :: '/' :: P2).head? ≠ some '/') from fun h => h.2 rfl)]
        rw [ite_push_append (P := Q ≠ [])]
        by_cases hsc : S ≠ []
        · rw [if_pos hsc, if_pos hsc]
          simp [List.append_assoc]
        · rw [if_neg hsc, if_neg hsc]
          simp
      rw [hout]
      have htail : ('/' :: '/' :: P2)
            ++ (if Q ≠ [] then '?' :: Q else []) = []
          ∨ ∃ c t, ('/' :: '/' :: P2)
            ++ (if Q ≠ [] then '?' :: Q else []) = c :: t
            ∧ netlocStop c = true ∧ tabCrLf c = false :=
        Or.inr ⟨'/', _, rfl, by decide, by decide⟩
      rcases hs with hs0 | ⟨⟨c0, cs0, hsch, halpha⟩, hall⟩
      · rw [if_neg (by rw [hs0]; intro h; exact h rfl), List.nil_append]
        exact parse_noscheme_slashslash [] []
          (('/' :: '/' :: P2) ++ (if Q ≠ [] then '?' :: Q else []))
          (fun c hc => absurd hc (List.not_mem_nil c))
          (fun c hc => absurd hc (List.not_mem_nil c)) htail
      · rw [if_pos (by rw [hsch]; intro h; cases h)]
        have hr : S ++ [':'] ++ '/' :: '/' :: ([] ++ (('/' :: '/' :: P2)
              ++ (if Q ≠ [] then '?' :: Q else [])))
            = S ++ ':' :: '/' :: '/' :: ([] ++ (('/' :: '/' :: P2)
              ++ (if Q ≠ [] then '?' :: Q else []))) := by
          simp
        rw [hr]
        exact parse_scheme_slashslash [] S []
          (('/' :: '/' :: P2) ++ (if Q ≠ [] then '?' :: Q else []))
          hsch halpha hall
          (fun c hc => absurd hc (List.not_mem_nil c))
          (fun c hc => absurd hc (List.not_mem_nil c)) htail
  · -- path does not start with //: no // is produced at all
    have hout : urlunsplit (⟨S, [], P, Q, []⟩ : SplitResult)
        = (if S ≠ [] then S ++ [':'] else [])
          ++ (P ++ (if Q ≠ [] then '?' :: Q else [])) := by
      simp only [urlunsplit]
      rw [if_neg (show ¬(([] : List Char) ≠ []
          ∨ (P ≠ [] ∧ P.take 2 = ['/', '/'])) from by
        rintro (h0 | ⟨-, h2⟩)
        · exact h0 rfl
        · exact hA h2)]
      rw [ite_push_append (P := Q ≠ [])]
      by_cases hsc : S ≠ []
      · rw [if_pos hsc, if_pos hsc]
        simp [List.append_assoc]
      · rw [if_neg hsc, if_neg hsc]
        simp
    rw [hout]
    have hPQclean : ∀ c ∈ P ++ (if Q ≠ [] then '?' :: Q else []),
        tabCrLf c = false := by
      intro c hc
      rcases List.mem_append.1 hc with hc | hc
      · exact hPclean c hc
      · exact hq'clean c hc
    have hns : (P ++ (if Q ≠ [] then '?' :: Q else [])).take 2
        ≠ (['/', '/'] : List Char) := take2_append_qmark hA hq'shape
    rcases hs with hs0 | ⟨⟨c0, cs0, hsch, halpha⟩, hall⟩
    · rw [if_neg (by rw [hs0]; intro h; exact h rfl), List.nil_append]
      exact parse_noscheme_no_netloc [] _ hPQclean (hsp hs0 hA) hns
    · rw [if_pos (by rw [hsch]; intro h; cases h)]
      have hr : S ++ [':'] ++ (P ++ (if Q ≠ [] then '?' :: Q else []))
          = S ++ ':' :: (P ++ (if Q ≠ [] then '?' :: Q else [])) := by
        simp
      rw [hr]
      exact parse_scheme_no_netloc [] S _ hsch halpha hall hPQclean hns

theorem parse_empty_scheme_none {s : List Char}
    (h0 : (urlsplitCore [] s).scheme = []) :
    splitScheme (stripCtl s) = none
    ∧ urlsplitCore [] s = splitRest [] (stripCtl s) := by
  rcases urlsplitCore_eq [] s with ⟨sch, rest, hsp, heq⟩ | ⟨hsp, heq⟩
  · exfalso
    obtain ⟨⟨c, cs, hsch, _⟩, _⟩ := splitScheme_good hsp
    have hthis : (urlsplitCore [] s).scheme = sch := by
      rw [heq]
      rfl
    rw [h0, hsch] at hthis
    cases hthis
  · exact ⟨hsp, heq⟩

theorem parse_empty_netloc_scheme_none {s : List Char}
    (hS : (urlsplitCore [] s).scheme = [])
    (hn : (urlsplitCore [] s).netloc = []) :
    splitScheme ((urlsplitCore [] s).path
      ++ (if (urlsplitCore [] s).query ≠ []
          then '?' :: (urlsplitCore [] s).query else [])) = none := by
  obtain ⟨hsp, heq⟩ := parse_empty_scheme_none hS
  rw [heq] at hn ⊢
  rw [splitRest_netloc] at hn
  obtain ⟨t, hdec⟩ := splitRest_decompose [] (stripCtl s)
  rcases splitNetloc_eq (stripCtl s) with ⟨r, hr, heq2⟩ | ⟨heq2, _⟩
  · -- the input starts with //: the netloc was split at the first stop char
    have htw : r.takeWhile (fun c => !netlocStop c) = [] :=
      (congrArg Prod.fst heq2).symm.trans hn
    have hdw : r.dropWhile (fun c => !netlocStop c) = r :=
      dropWhile_of_takeWhile_nil htw
    have hdec2 : r = ((splitRest [] (stripCtl s)).path
        ++ (if (splitRest [] (stripCtl s)).query ≠ []
            then '?' :: (splitRest [] (stripCtl s)).query else [])) ++ t :=
      (hdw.symm.trans ((congrArg Prod.snd heq2).symm.trans hdec))
    cases hpath : (splitRest [] (stripCtl s)).path with
    | nil =>
      rw [List.nil_append]
      by_cases hq : (splitRest [] (stripCtl s)).query ≠ []
      · rw [if_pos hq]
        exact splitScheme_none_head (by decide)
      · rw [if_neg hq]
        rfl
    | cons c t2 =>
      rw [hpath] at hdec2
      simp only [List.cons_append] at hdec2
      rw [hdec2, List.takeWhile_cons] at htw
      have hpc : netlocStop c = true := by
        cases hcc : netlocStop c
        · rw [hcc] at htw
          simp at htw
        · rfl
      rw [netlocStop] at hpc
      simp only [Bool.or_eq_true, beq_iff_eq] at hpc
      rcases hpc with (hc | hc) | hc
      · subst hc
        exact splitScheme_none_head (by decide)
      · exfalso
        apply splitRest_path_no_query_mark [] (stripCtl s)
        rw [hpath, ← hc]
        exact List.mem_cons_self c t2
      · exfalso
        apply splitRest_path_no_hash [] (stripCtl s)
        rw [hpath, ← hc]
        exact List.mem_cons_self c t2
  · -- no //: the whole rest is path/query/fragment material
    have hdec2 : stripCtl s = ((splitRest [] (stripCtl s)).path
        ++ (if (splitRest [] (stripCtl s)).query ≠ []
            then '?' :: (splitRest [] (stripCtl s)).query else [])) ++ t :=
      (congrArg Prod.snd heq2).symm.trans hdec
    have hsp2 : splitScheme (((splitRest [] (stripCtl s)).path
        ++ (if (splitRest [] (stripCtl s)).query ≠ []
            then '?' :: (splitRest [] (stripCtl s)).query else [])) ++ t)
        = none := (congrArg splitScheme hdec2).symm.trans hsp
    exact splitScheme_none_append hsp2

/-- Defragmentation does not change the netloc a subsequent `urlsplit`
recovers. -/
theorem netloc_urldefragCore (s : List Char) :
    (urlsplitCore [] (urldefragCore s)).netloc
      = (urlsplitCore [] s).netloc := by
  by_cases hh : (splitFirst '#' s).2.isSome = true
  · rw [urldefragCore, if_pos hh]
    show (urlsplitCore [] (urlunsplit
        (⟨(urlsplitCore [] s).scheme, (urlsplitCore [] s).netloc,
          (urlsplitCore [] s).path, (urlsplitCore [] s).query, []⟩
          : SplitResult))).netloc
      = (urlsplitCore [] s).netloc
    by_cases hn : (urlsplitCore [] s).netloc = []
    · rw [hn]
      exact parse_unsplit_no_netloc _ _ _
        (urlsplitCore_scheme_shape [] s (Or.inl rfl))
        (urlsplitCore_path_clean [] s) (urlsplitCore_query_clean [] s)
        (fun h0 _ => parse_empty_netloc_scheme_none h0 hn)
    · exact netloc_split_unsplit [] _
        (urlsplitCore_scheme_shape [] s (Or.inl rfl)) hn
        (urlsplitCore_netloc_stop [] s) (urlsplitCore_netloc_clean [] s)
  · rw [urldefragCore, if_neg hh]

/-- Defragmenting the re-assembly of a split result with a good nonempty
netloc still re-parses to that netloc. -/
theorem netloc_defrag_unsplit (r : SplitResult)
    (hs : r.scheme = [] ∨ ((∃ c cs, r.scheme = c :: cs ∧ c.isAlpha = true)
        ∧ ∀ c ∈ r.scheme, schemeChar c = true))
    (hn : r.netloc ≠ [])
    (hstop : ∀ c ∈ r.netloc, netlocStop c = false)
    (hclean : ∀ c ∈ r.netloc, tabCrLf c = false) :
    (urlsplitCore [] (urldefragCore (urlunsplit r))).netloc = r.netloc :=
  (netloc_urldefragCore (urlunsplit r)).trans
    (netloc_split_unsplit [] r hs hn hstop hclean)

/-- `urljoin` against a base with a nonempty host yields a URL whose host is
the base's host or empty, whenever the joined URL's own host is empty or
already equal to the base's. -/
theorem urljoinCore_netloc_cases (base url : List Char)
    (hbnet : (urlsplitCore [] base).netloc ≠ [])
    (hunl : (urlsplitCore [] url).netloc = []
      ∨ (urlsplitCore [] url).netloc = (urlsplitCore [] base).netloc) :
    (urlsplitCore [] (urljoinCore base url)).netloc
        = (urlsplitCore [] base).netloc
    ∨ (urlsplitCore [] (urljoinCore base url)).netloc = [] := by
  have hshape := urlsplitCore_scheme_shape (urlsplitCore [] base).scheme url
    (urlsplitCore_scheme_shape [] base (Or.inl rfl))
  have hd := urlsplitCore_d_netloc (urlsplitCore [] base).scheme [] url
  by_cases hb0 : base = []
  · exact absurd (by rw [hb0]; rfl) hbnet
  by_cases hu0 : url = []
  · simp only [urljoinCore]
    rw [if_neg hb0, if_pos hu0]
    exact Or.inl rfl
  simp only [urljoinCore]
  rw [if_neg hb0, if_neg hu0]
  by_cases h3 : (urlsplitCore (urlsplitCore [] base).scheme url).scheme
        ≠ (urlsplitCore [] base).scheme
      ∨ (urlsplitCore (urlsplitCore [] base).scheme url).scheme
        ∉ usesRelative
  · rw [if_pos h3]
    rcases hunl with h | h
    · exact Or.inr h
    · exact Or.inl h
  rw [if_neg h3]
  push_neg at h3
  obtain ⟨hseq, hrel⟩ := h3
  have hsub : ∀ x ∈ usesRelative, x ∈ usesNetloc := by decide
  have hmem : (urlsplitCore (urlsplitCore [] base).scheme url).scheme
      ∈ usesNetloc := hsub _ hrel
  by_cases h4 : (urlsplitCore (urlsplitCore [] base).scheme url).scheme
        ∈ usesNetloc
      ∧ (urlsplitCore (urlsplitCore [] base).scheme url).netloc ≠ []
  · rw [if_pos h4]
    left
    have hu : (urlsplitCore (urlsplitCore [] base).scheme url).netloc
        = (urlsplitCore [] base).netloc := by
      rcases hunl with h | h
      · exact absurd (hd.trans h) h4.2
      · exact hd.trans h
    exact (netloc_split_unsplit []
      (urlsplitCore (urlsplitCore [] base).scheme url) hshape h4.2
      (urlsplitCore_netloc_stop _ url)
      (urlsplitCore_netloc_clean _ url)).trans hu
  rw [if_neg h4]
  have hnl : (if (urlsplitCore (urlsplitCore [] base).scheme url).scheme
        ∈ usesNetloc
      then (urlsplitCore [] base).netloc
      else (urlsplitCore (urlsplitCore [] base).scheme url).netloc)
      = (urlsplitCore [] base).netloc := if_pos hmem
  by_cases h5 : (urlsplitCore (urlsplitCore [] base).scheme url).path = []
  · rw [if_pos h5]
    left
    rw [hnl]
    exact netloc_split_unsplit [] _ hshape hbnet
      (urlsplitCore_netloc_stop [] base)
      (urlsplitCore_netloc_clean [] base)
  · rw [if_neg h5]
    left
    rw [hnl]
    exact netloc_split_unsplit [] _ hshape hbnet
      (urlsplitCore_netloc_stop [] base)
      (urlsplitCore_netloc_clean [] base)

/-- An admitted href resolved against the page URL itself lands on the
page's host or on an empty host. -/
theorem resolved_netloc_cases (page_url href : String)
    (hpnet : (urlparse page_url).netloc ≠ [])
    (hadm : admissibleHref (urlparse page_url).netloc href = true) :
    (urlparse (urldefrag (urljoin page_url href))).netloc
        = (urlparse page_url).netloc
    ∨ (urlparse (urldefrag (urljoin page_url href))).netloc = [] := by
  have hunl : (urlsplitCore [] href.data).netloc = []
      ∨ (urlsplitCore [] href.data).netloc
        = (urlsplitCore [] page_url.data).netloc := by
    simp only [admissibleHref, Bool.and_eq_true, decide_eq_true_eq] at hadm
    have h2 := hadm.2
    rw [List.mem_cons, List.mem_singleton] at h2
    exact h2
  have h1 : (urlparse (urldefrag (urljoin page_url href))).netloc
      = (urlsplitCore [] (urljoinCore page_url.data href.data)).netloc :=
    netloc_urldefragCore (urljoinCore page_url.data href.data)
  rw [h1]
  exact urljoinCore_netloc_cases page_url.data href.data hpnet hunl

/-- **C5, counterexample.** The original claim is false: a `<base href>`
naming a foreign host injects cross-site URLs into the result, because the
admission test inspects the raw href while resolution uses the base.  On
page `http://h/index.html` with `<base href="http://evil/">`, the relative
href `foo.html` is admitted and resolves to `http://evil/foo.html`, whose
host differs from the page's host `h`. -/
theorem C5_base_href_cross_site_counterexample :
    ∃ R, extract_links_from_page "http://h/index.html"
        (⟨[⟨[("href", "foo.html")]⟩], some ⟨[("href", "http://evil/")]⟩⟩
          : Doc)
      = .ok R
    ∧ "http://evil/foo.html" ∈ R
    ∧ (urlparse "http://evil/foo.html").netloc
      ≠ (urlparse "http://h/index.html").netloc := by
  refine ⟨_, rfl, ?_, by decide⟩
  exact Finset.mem_insert_self _ _

/-- **C5 (amended).** For a document with no `<base>` element, on a page
whose URL has a nonempty host, every URL in a successful extraction result
has the page's host or an empty host (an empty host arises from admitted
hrefs such as `http:foo.html` on an `https` page, which `urljoin` returns
unchanged). -/
theorem C5_amended_same_host_without_base (page_url : String) (soup : Doc)
    (R : Finset String) (hbase : soup.base = none)
    (hpnet : (urlparse page_url).netloc ≠ [])
    (hok : extract_links_from_page page_url soup = .ok R) :
    ∀ u ∈ R, (urlparse u).netloc = (urlparse page_url).netloc
      ∨ (urlparse u).netloc = [] := by
  intro u hu
  rw [extract_links_from_page] at hok
  have hmem := (extractLoop_ok_mem page_url soup _ _ _ R hok u).1 hu
  rcases hmem with habs | ⟨h, _, hadm, hres⟩
  · exact absurd habs (Finset.not_mem_empty u)
  · rw [resolve_link_url, hbase] at hres
    injection hres with hres
    rw [← hres]
    exact resolved_netloc_cases page_url h hpnet hadm

theorem C5_amended_same_host_without_base_witness :
    (urlparse "http://h/index.html").netloc ≠ []
    ∧ ∀ u ∈ (insert "http://h/foo.html" (∅ : Finset String)),
        (urlparse u).netloc = (urlparse "http://h/index.html").netloc
        ∨ (urlparse u).netloc = [] :=
  ⟨by decide, C5_amended_same_host_without_base "http://h/index.html"
    (⟨[⟨[("href", "foo.html")]⟩], none⟩ : Doc)
    (insert "http://h/foo.html" ∅) rfl (by decide) rfl⟩
